import Mathlib

/-!
Verification of the travel recommendation and routing engine.

The Python source under `app/` is shallowly embedded below.  Python dicts
are modelled as insertion-ordered association lists (`alookup` returns the
first binding, matching dict lookup; dicts built by the code never hold a
duplicate key).  The `heapq` priority queues hold tuples and always pop the
least tuple under Python tuple comparison; since the push guards ensure
that two live entries never share the same (distance, node) component, the
queue is modelled as a list from which the least (distance, node) key is
removed (`popMin`), which is observationally identical to `heapq` here.
Python `int` distances are modelled as `Nat` (the knowledge base stores
positive km values and the bounded search compares against a km bound);
coordinates, whose seed literals all carry exactly four decimals and are
only ever compared against integer bounds, are modelled exactly in fixed
point as `Int` multiples of 1e-4 degrees.
-/

/-- Association list lookup: Python dict access, first binding wins. -/
def alookup {β : Type} : List (String × β) → String → Option β
  | [], _ => none
  | (a, v) :: rest, c => if a = c then some v else alookup rest c

/-- Association list update: Python dict assignment, updating the first
binding in place or appending a fresh one. -/
def aupdate {β : Type} : List (String × β) → String → β → List (String × β)
  | [], c, v => [(c, v)]
  | (a, u) :: rest, c, v =>
    if a = c then (c, v) :: rest else (a, u) :: aupdate rest c v

/-- Weighted adjacency: neighbours of one city with edge distances. -/
abbrev AdjList := List (String × Nat)

/-- The adjacency structure `Dict[str, Dict[str, int]]` of the source. -/
abbrev Graph := List (String × AdjList)

/-- Map from city name to a tentative distance (the `distances` / `seen`
dict of the searches). -/
abbrev DistMap := List (String × Nat)

/-- `edgeMem g a b w`: the adjacency dict of `a` holds the binding
`(b, w)`; exactly the pairs the loop `for neighbor, w in graph.get(a, {})`
iterates over. -/
def edgeMem (g : Graph) (a b : String) (w : Nat) : Prop :=
  ∃ ns, alookup g a = some ns ∧ (b, w) ∈ ns

/-- `Chain g a c p d`: the list `p` walks from `a` to `c` along edges of
`g` and the traversed weights sum to `d`.  This is the mathematical route
predicate the searches are compared against. -/
inductive Chain (g : Graph) : String → String → List String → Nat → Prop where
  | single (a : String) : Chain g a a [a] 0
  | cons {a b c : String} {w d : Nat} {p : List String} :
      edgeMem g a b w → Chain g b c p d → Chain g a c (a :: p) (w + d)

/-- Python string comparison on code points, on the character lists. -/
def charListLt : List Char → List Char → Bool
  | _, [] => false
  | [], _ :: _ => true
  | c :: cs, d :: ds =>
    if c.toNat < d.toNat then true
    else if d.toNat < c.toNat then false
    else charListLt cs ds

/-- Python's `<` on strings: code-point lexicographic order. -/
def pyStrLt (a b : String) : Bool := charListLt a.data b.data

/-- Key order used by the heap model: Python tuple comparison restricted
to the (distance, node) components, which determine live entries. -/
def keyLt (k1 k2 : Nat × String) : Prop :=
  k1.1 < k2.1 ∨ (k1.1 = k2.1 ∧ pyStrLt k1.2 k2.2 = true)

instance (k1 k2 : Nat × String) : Decidable (keyLt k1 k2) := by
  unfold keyLt; infer_instance

def keyLe (k1 k2 : Nat × String) : Prop :=
  k1.1 < k2.1 ∨ (k1.1 = k2.1 ∧ pyStrLt k2.2 k1.2 = false)

/-- Leftmost minimal element of a nonempty list under `keyLt` on keys. -/
def pickMin {α : Type} (key : α → Nat × String) : α → List α → α
  | best, [] => best
  | best, x :: xs =>
    if keyLt (key x) (key best) then pickMin key x xs else pickMin key best xs

/-- Remove the first occurrence of an element. -/
def eraseFirst {α : Type} [DecidableEq α] : List α → α → List α
  | [], _ => []
  | x :: xs, a => if x = a then xs else x :: eraseFirst xs a

/-- Pop the least (distance, node) key from the queue: the observable
behaviour of `heapq.heappop` here, since live entries never tie on that
key (a push needs a strictly smaller tentative distance for its node). -/
def popMin {α : Type} [DecidableEq α] (key : α → Nat × String) :
    List α → Option (α × List α)
  | [] => none
  | x :: xs => some (pickMin key x xs, eraseFirst (x :: xs) (pickMin key x xs))

/-- A priority-queue entry `(distance, current_city, path_so_far)` of the
shortest-path searches. -/
structure Ent where
  dist : Nat
  city : String
  path : List String
deriving DecidableEq

def entKey (e : Ent) : Nat × String := (e.dist, e.city)

/-- One pass of `for neighbor, edge_weight in graph.get(current_city, {}).items()`
relaxing from entry `e`: update the tentative-distance dict and push a new
entry whenever the guard `neighbor not in distances or new < distances[neighbor]`
holds (shared verbatim by `dijkstra_shortest_path` and `_dijkstra`). -/
def relaxList (e : Ent) : AdjList → DistMap → List Ent → DistMap × List Ent
  | [], dist, q => (dist, q)
  | (n, w) :: rest, dist, q =>
    match alookup dist n with
    | some u =>
      if e.dist + w < u then
        relaxList e rest (aupdate dist n (e.dist + w)) (⟨e.dist + w, n, e.path ++ [n]⟩ :: q)
      else relaxList e rest dist q
    | none =>
        relaxList e rest (aupdate dist n (e.dist + w)) (⟨e.dist + w, n, e.path ++ [n]⟩ :: q)

/-- The `while queue:` loop of `dijkstra_shortest_path` (app/kb/algorithms.py):
pop the least entry, return on the target, skip stale entries
(`current_dist > distances.get(current_city, inf)`), otherwise relax.
`fuel` bounds the iteration count; `dijFuel` below is proved sufficient. -/
def dijLoopA (g : Graph) (target : String) : Nat → DistMap → List Ent → List String × Nat
  | 0, _, _ => ([], 0)
  | fuel + 1, dist, q =>
    match popMin entKey q with
    | none => ([], 0)
    | some (e, q1) =>
      if e.city = target then (e.path, e.dist)
      else
        match alookup dist e.city with
        | some v =>
          if v < e.dist then dijLoopA g target fuel dist q1
          else
            dijLoopA g target fuel
              (relaxList e ((alookup g e.city).getD []) dist q1).1
              (relaxList e ((alookup g e.city).getD []) dist q1).2
        | none =>
            dijLoopA g target fuel
              (relaxList e ((alookup g e.city).getD []) dist q1).1
              (relaxList e ((alookup g e.city).getD []) dist q1).2

/-- The `while queue:` loop of `_dijkstra` (app/experta_kb.py): identical
except that it has no stale-entry skip. -/
def dijLoopE (g : Graph) (target : String) : Nat → DistMap → List Ent → List String × Nat
  | 0, _, _ => ([], 0)
  | fuel + 1, seen, q =>
    match popMin entKey q with
    | none => ([], 0)
    | some (e, q1) =>
      if e.city = target then (e.path, e.dist)
      else
        dijLoopE g target fuel
          (relaxList e ((alookup g e.city).getD []) seen q1).1
          (relaxList e ((alookup g e.city).getD []) seen q1).2

/-- All node names the search can ever touch: the source plus every key
and every neighbour name of the adjacency dict (duplicates harmless). -/
def nodesOf (g : Graph) (source : String) : List String :=
  source :: g.flatMap (fun p => p.1 :: p.2.map Prod.fst)

/-- Total weight of all adjacency entries; simple paths cost at most this. -/
def sumWeights (g : Graph) : Nat :=
  (g.map (fun p => (p.2.map Prod.snd).sum)).sum

/-- Iteration bound for the unbounded searches, proved sufficient below. -/
def dijFuel (g : Graph) (source : String) : Nat :=
  2 * ((sumWeights g + 1) * (nodesOf g source).length) + 2

/-- `dijkstra_shortest_path` (app/kb/algorithms.py): short-circuit on
`source == target`, the no-path sentinel on an absent endpoint, else the
search loop from `{source: 0}` and `[(0, source, [source])]`. -/
def dijkstra_shortest_path (g : Graph) (source target : String) : List String × Nat :=
  if source = target then ([source], 0)
  else if (alookup g source).isNone || (alookup g target).isNone then ([], 0)
  else dijLoopA g target (dijFuel g source) [(source, 0)] [⟨0, source, [source]⟩]

/-- `_dijkstra` (app/experta_kb.py): as above but with no membership
check on the endpoints. -/
def dijkstraKb (g : Graph) (source target : String) : List String × Nat :=
  if source = target then ([source], 0)
  else dijLoopE g target (dijFuel g source) [(source, 0)] [⟨0, source, [source]⟩]

/-- `graph.setdefault(a, {})[b] = d` on the adjacency dict. -/
def ginsert : Graph → String → String → Nat → Graph
  | [], a, b, d => [(a, [(b, d)])]
  | (x, ns) :: rest, a, b, d =>
    if x = a then (x, aupdate ns b d) :: rest else (x, ns) :: ginsert rest a b d

/-- The construction loop shared by `build_distance_graph`
(app/kb/algorithms.py) and `_build_graph` (app/experta_kb.py): insert both
directions of every connection. -/
def build_graph (conns : List (String × String × Nat)) : Graph :=
  conns.foldl (fun g c => ginsert (ginsert g c.1 c.2.1 c.2.2) c.2.1 c.1 c.2.2) []

/-- The relaxation pass of `get_cities_within_distance`
(app/kb/algorithms.py): a neighbour is recorded and enqueued only when
`new_distance <= max_distance` and it improves the stored distance. -/
def bddRelax (maxd ed : Nat) :
    AdjList → DistMap → List (Nat × String) → DistMap × List (Nat × String)
  | [], dist, q => (dist, q)
  | (n, w) :: rest, dist, q =>
    if ed + w ≤ maxd then
      match alookup dist n with
      | some u =>
        if ed + w < u then bddRelax maxd ed rest (aupdate dist n (ed + w)) ((ed + w, n) :: q)
        else bddRelax maxd ed rest dist q
      | none => bddRelax maxd ed rest (aupdate dist n (ed + w)) ((ed + w, n) :: q)
    else bddRelax maxd ed rest dist q

/-- The `while queue:` loop of `get_cities_within_distance`: pop the least
`(distance, city)` pair, skip entries beyond the bound or stale, else relax. -/
def bddLoop (g : Graph) (maxd : Nat) : Nat → DistMap → List (Nat × String) → DistMap
  | 0, dist, _ => dist
  | fuel + 1, dist, q =>
    match popMin (fun k => k) q with
    | none => dist
    | some ((d, c), q1) =>
      if maxd < d then bddLoop g maxd fuel dist q1
      else
        match alookup dist c with
        | some v =>
          if v < d then bddLoop g maxd fuel dist q1
          else
            bddLoop g maxd fuel
              (bddRelax maxd d ((alookup g c).getD []) dist q1).1
              (bddRelax maxd d ((alookup g c).getD []) dist q1).2
        | none =>
            bddLoop g maxd fuel
              (bddRelax maxd d ((alookup g c).getD []) dist q1).1
              (bddRelax maxd d ((alookup g c).getD []) dist q1).2

/-- Iteration bound for the bounded search (all stored values stay `≤ maxd`). -/
def bddFuel (g : Graph) (source : String) (maxd : Nat) : Nat :=
  2 * ((maxd + 1) * (nodesOf g source).length) + 2

/-- `get_cities_within_distance` (app/kb/algorithms.py): `{}` when the
source is absent, else the bounded search from `{source: 0}`. -/
def get_cities_within_distance (g : Graph) (source : String) (maxd : Nat) : DistMap :=
  if (alookup g source).isNone then []
  else bddLoop g maxd (bddFuel g source maxd) [(source, 0)] [(0, source)]

/-- Queue entry of the FIFO-tie-break reference search: carries the
insertion sequence number the spec asks for. -/
structure FEnt where
  dist : Nat
  seq : Nat
  city : String
  path : List String
deriving DecidableEq

def natKeyLt (k1 k2 : Nat × Nat) : Prop :=
  k1.1 < k2.1 ∨ (k1.1 = k2.1 ∧ k1.2 < k2.2)

instance (k1 k2 : Nat × Nat) : Decidable (natKeyLt k1 k2) := by
  unfold natKeyLt; infer_instance

def pickMinF : FEnt → List FEnt → FEnt
  | best, [] => best
  | best, x :: xs =>
    if natKeyLt (x.dist, x.seq) (best.dist, best.seq) then pickMinF x xs
    else pickMinF best xs

def popMinF : List FEnt → Option (FEnt × List FEnt)
  | [] => none
  | x :: xs => some (pickMinF x xs, eraseFirst (x :: xs) (pickMinF x xs))

def fifoRelax (e : FEnt) :
    AdjList → Nat → DistMap → List FEnt → DistMap × List FEnt × Nat
  | [], ctr, dist, q => (dist, q, ctr)
  | (n, w) :: rest, ctr, dist, q =>
    match alookup dist n with
    | some u =>
      if e.dist + w < u then
        fifoRelax e rest (ctr + 1) (aupdate dist n (e.dist + w))
          (⟨e.dist + w, ctr, n, e.path ++ [n]⟩ :: q)
      else fifoRelax e rest ctr dist q
    | none =>
        fifoRelax e rest (ctr + 1) (aupdate dist n (e.dist + w))
          (⟨e.dist + w, ctr, n, e.path ++ [n]⟩ :: q)

def dijLoopF (g : Graph) (target : String) :
    Nat → DistMap → List FEnt → Nat → List String × Nat
  | 0, _, _, _ => ([], 0)
  | fuel + 1, dist, q, ctr =>
    match popMinF q with
    | none => ([], 0)
    | some (e, q1) =>
      if e.city = target then (e.path, e.dist)
      else
        match alookup dist e.city with
        | some v =>
          if v < e.dist then dijLoopF g target fuel dist q1 ctr
          else
            dijLoopF g target fuel
              (fifoRelax e ((alookup g e.city).getD []) ctr dist q1).1
              (fifoRelax e ((alookup g e.city).getD []) ctr dist q1).2.1
              (fifoRelax e ((alookup g e.city).getD []) ctr dist q1).2.2
        | none =>
            dijLoopF g target fuel
              (fifoRelax e ((alookup g e.city).getD []) ctr dist q1).1
              (fifoRelax e ((alookup g e.city).getD []) ctr dist q1).2.1
              (fifoRelax e ((alookup g e.city).getD []) ctr dist q1).2.2

/-- Modelled from the spec (section 4.2), not from the code: the same
search but with the tie-break the spec mandates, "whichever city was
enqueued first at that distance is expanded first", via an explicit
insertion sequence number as the secondary sort key.  Used to compare the
implemented tie-break against the specified one. -/
def dijkstraSpecFIFO (g : Graph) (source target : String) : List String × Nat :=
  if source = target then ([source], 0)
  else if (alookup g source).isNone || (alookup g target).isNone then ([], 0)
  else dijLoopF g target (dijFuel g source) [(source, 0)] [⟨0, 0, source, [source]⟩] 1

/-- A `City` dataclass value (app/kb/entities.py); enumeration members are
represented by their `.value` strings.  Coordinates are stored exactly in
fixed point, units of 1e-4 degrees (every seed literal has four decimals),
so `latitude = 69271` stands for the Python float `6.9271`. -/
structure CityRec where
  name : String
  city_type : String
  region : String
  climate : String
  best_season : String
  budget_level : String
  latitude : Int
  longitude : Int
  attractions : List String
deriving DecidableEq

/-- A `Connection` dataclass value (app/kb/entities.py). -/
structure ConnectionRec where
  city_a : String
  city_b : String
  distance_km : Int
deriving DecidableEq

/-- `City.__post_init__`: the only validation run for a city — latitude
then longitude bounds (here in 1e-4 degrees: the Python checks
`-90 <= lat <= 90` and `-180 <= lon <= 180`); a violation raises
`ValueError`. -/
def cityPostInit (c : CityRec) : Except String CityRec :=
  if ¬ (-900000 ≤ c.latitude ∧ c.latitude ≤ 900000) then .error "Invalid latitude"
  else if ¬ (-1800000 ≤ c.longitude ∧ c.longitude ≤ 1800000) then .error "Invalid longitude"
  else .ok c

/-- `Connection.__post_init__`: the only validation run for a connection —
a non-positive distance raises `ValueError`. -/
def connectionPostInit (k : ConnectionRec) : Except String ConnectionRec :=
  if k.distance_km ≤ 0 then .error "Distance must be positive" else .ok k

def loadCities : List CityRec → Except String Unit
  | [] => .ok ()
  | c :: rest =>
    match cityPostInit c with
    | .error e => .error e
    | .ok _ => loadCities rest

def loadConnections : List ConnectionRec → Except String Unit
  | [] => .ok ()
  | k :: rest =>
    match connectionPostInit k with
    | .error e => .error e
    | .ok _ => loadConnections rest

/-- Importing app/kb/data.py constructs every element of `CITIES_DATA` and
then of `CONNECTIONS_DATA`; each construction runs the dataclass
`__post_init__`, and the first `ValueError` aborts the load.  No other
validation runs at load time. -/
def loadSeed (cities : List CityRec) (conns : List ConnectionRec) : Except String Unit :=
  match loadCities cities with
  | .error e => .error e
  | .ok _ => loadConnections conns

/-- The `CITIES` dict of app/experta_kb.py: name to (type, region, climate). -/
def CITIES : List (String × String × String × String) :=
  [("colombo", "urban", "west", "tropical"),
   ("galle", "beach", "south", "tropical"),
   ("mirissa", "beach", "south", "tropical"),
   ("hambantota", "beach", "south", "tropical"),
   ("kandy", "cultural", "central", "mild"),
   ("nuwara_eliya", "hill_country", "central", "cool"),
   ("ella", "hill_country", "uva", "mild"),
   ("anuradhapura", "historical", "north_central", "dry"),
   ("sigiriya", "historical", "north_central", "dry"),
   ("yala", "national_park", "southeast", "tropical"),
   ("horton_plains", "national_park", "central", "cool"),
   ("jaffna", "urban", "north", "dry"),
   ("trincomalee", "beach", "east", "tropical"),
   ("arugam_bay", "beach", "east", "tropical"),
   ("polonnaruwa", "historical", "north_central", "dry"),
   ("dambulla", "historical", "central", "dry"),
   ("bentota", "beach", "west", "tropical"),
   ("negombo", "beach", "west", "tropical"),
   ("matara", "urban", "south", "tropical"),
   ("badulla", "hill_country", "uva", "mild")]

/-- The `DISTANCES` list of app/experta_kb.py. -/
def DISTANCES : List (String × String × Nat) :=
  [("colombo", "kandy", 115), ("kandy", "nuwara_eliya", 77), ("nuwara_eliya", "ella", 60),
   ("colombo", "mirissa", 155), ("colombo", "galle", 119), ("galle", "mirissa", 36),
   ("ella", "yala", 130), ("colombo", "anuradhapura", 205), ("anuradhapura", "sigiriya", 22),
   ("kandy", "sigiriya", 90), ("kandy", "horton_plains", 60), ("mirissa", "matara", 12),
   ("matara", "hambantota", 80), ("hambantota", "yala", 60), ("colombo", "negombo", 34),
   ("negombo", "kandy", 100), ("kandy", "dambulla", 72), ("dambulla", "sigiriya", 17),
   ("sigiriya", "polonnaruwa", 60), ("polonnaruwa", "trincomalee", 107),
   ("kandy", "badulla", 137), ("badulla", "ella", 28), ("trincomalee", "anuradhapura", 110),
   ("anuradhapura", "jaffna", 200), ("arugam_bay", "yala", 160), ("arugam_bay", "ella", 165),
   ("bentota", "galle", 56), ("bentota", "colombo", 65)]

/-- The `BUDGETS` dict of app/experta_kb.py. -/
def BUDGETS : List (String × String) :=
  [("mirissa", "moderate"), ("nuwara_eliya", "high"), ("kandy", "moderate"),
   ("ella", "budget"), ("colombo", "variable"), ("galle", "moderate"),
   ("negombo", "budget"), ("bentota", "moderate"), ("anuradhapura", "budget"),
   ("sigiriya", "moderate"), ("polonnaruwa", "budget"), ("dambulla", "budget"),
   ("trincomalee", "moderate"), ("jaffna", "moderate"), ("arugam_bay", "budget"),
   ("matara", "budget"), ("badulla", "budget")]

/-- The `BEST_SEASON` dict of app/experta_kb.py (note: no entry for
colombo, hambantota, yala or horton_plains). -/
def BEST_SEASON : List (String × String) :=
  [("mirissa", "winter"), ("ella", "summer"), ("kandy", "all_year"),
   ("nuwara_eliya", "all_year"), ("galle", "winter"), ("yala", "winter"),
   ("arugam_bay", "summer"), ("trincomalee", "summer"), ("jaffna", "summer"),
   ("negombo", "all_year"), ("bentota", "winter"), ("anuradhapura", "all_year"),
   ("sigiriya", "all_year"), ("polonnaruwa", "all_year"), ("dambulla", "all_year"),
   ("horton_plains", "all_year"), ("matara", "winter"), ("badulla", "summer")]

/-- `_build_graph` of app/experta_kb.py: both directions of `DISTANCES`. -/
def kbGraph : Graph := build_graph DISTANCES

/-- One `{'route': ..., 'distance': ..., 'recommended_score': ...}` result
dict of `recommend_trip`. -/
structure RRes where
  route : List String
  distance : Nat
  recommended_score : Nat
deriving DecidableEq

/-- Stable insertion into a list sorted ascending by `key`: an element is
placed before the first strictly greater or equal-key element it meets, so
earlier elements stay before later ones on equal keys. -/
def insertSorted {α : Type} (key : α → Int) (x : α) : List α → List α
  | [] => [x]
  | y :: ys => if key x ≤ key y then x :: y :: ys else y :: insertSorted key x ys

/-- Stable ascending sort by an integer key: the output Python's stable
`list.sort(key=...)` produces. -/
def sortByKey {α : Type} (key : α → Int) : List α → List α
  | [] => []
  | x :: xs => insertSorted key x (sortByKey key xs)

/-- The candidate filter of `recommend_trip` (app/experta_kb.py): cities
whose best season matches (or season is all_year) and whose budget matches
(or the requested budget is variable, with an absent budget defaulting to
variable). -/
def tripCandidates (season budget : String) : List String :=
  (CITIES.map Prod.fst).filter fun city =>
    (season == "all_year" || alookup BEST_SEASON city == some season) &&
    (budget == "variable" || (alookup BUDGETS city).getD "variable" == budget)

/-- `recommend_trip` (app/experta_kb.py) with the engine fact store
abstracted: `factCities` is the list of city facts the `TravelEngine` run
iterates over, each of which fires `mark_recommended` and so lands in
`recommended_by_experta` (the unconstrained rule fires for every city
fact, so the real run passes every key of `CITIES`).  Each candidate is
routed with `_dijkstra` toward `end` (or itself when `end` is falsy),
empty paths are dropped, and results are stably sorted ascending by
`distance - recommended_score`. -/
def recommendTripWith (factCities : List String)
    (season budget start : String) (endArg : Option String) : List RRes :=
  let startCity := if start = "" then "colombo" else start
  let results := (tripCandidates season budget).filterMap fun dest =>
    let endCity := endArg.getD dest
    let pd := dijkstraKb kbGraph startCity endCity
    if pd.1 = [] then none
    else some ⟨pd.1, pd.2, if dest ∈ factCities then 1 else 0⟩
  sortByKey (fun r => (r.distance : Int) - (r.recommended_score : Int)) results

/-- `recommend_trip` as called, with the fact store the engine run yields. -/
def recommend_trip (season budget start : String) (endArg : Option String) : List RRes :=
  recommendTripWith (CITIES.map Prod.fst) season budget start endArg

/-- `CITIES_DATA` of app/kb/data.py, one `CityRec` per `City(...)` entry. -/
def CITIES_DATA : List CityRec :=
  [⟨"colombo", "urban", "west", "tropical", "all_year", "variable", 69271, 798612, []⟩,
   ⟨"galle", "beach", "south", "tropical", "winter", "moderate", 60535, 802210, ["galle_fort"]⟩,
   ⟨"mirissa", "beach", "south", "tropical", "winter", "moderate", 59485, 804719, ["whale_watching"]⟩,
   ⟨"hambantota", "beach", "south", "tropical", "winter", "budget", 61246, 811210, []⟩,
   ⟨"kandy", "cultural", "central", "mild", "all_year", "moderate", 72906, 806337, ["temple_of_tooth"]⟩,
   ⟨"nuwara_eliya", "hill_country", "central", "cool", "all_year", "high", 69497, 807891, ["tea_plantations"]⟩,
   ⟨"ella", "hill_country", "uva", "mild", "summer", "budget", 68755, 810460, ["nine_arches_bridge"]⟩,
   ⟨"anuradhapura", "historical", "north_central", "dry", "all_year", "budget", 83114, 804037, ["ancient_ruins"]⟩,
   ⟨"sigiriya", "historical", "north_central", "dry", "all_year", "moderate", 79570, 807603, ["sigiriya_rock"]⟩,
   ⟨"yala", "national_park", "southeast", "tropical", "winter", "moderate", 63667, 815167, ["wildlife_safari"]⟩,
   ⟨"horton_plains", "national_park", "central", "cool", "all_year", "moderate", 68020, 807998, ["worlds_end"]⟩,
   ⟨"jaffna", "urban", "north", "dry", "summer", "moderate", 96615, 800255, ["nallur_kandaswamy_temple"]⟩,
   ⟨"trincomalee", "beach", "east", "tropical", "summer", "moderate", 85874, 812152, ["pigeon_island"]⟩,
   ⟨"arugam_bay", "beach", "east", "tropical", "summer", "budget", 68390, 818386, ["surfing"]⟩,
   ⟨"polonnaruwa", "historical", "north_central", "dry", "all_year", "budget", 79396, 810003, ["gal_vihara"]⟩,
   ⟨"dambulla", "historical", "central", "dry", "all_year", "budget", 78568, 806490, ["golden_temple"]⟩,
   ⟨"bentota", "beach", "west", "tropical", "winter", "moderate", 64210, 800011, ["water_sports"]⟩,
   ⟨"negombo", "beach", "west", "tropical", "all_year", "budget", 72083, 798358, ["fish_market"]⟩,
   ⟨"matara", "urban", "south", "tropical", "winter", "budget", 59549, 805550, ["star_fort"]⟩,
   ⟨"badulla", "hill_country", "uva", "mild", "summer", "budget", 69897, 810550, ["demodara_loop"]⟩,
   ⟨"kurunegala", "urban", "north_western", "tropical", "all_year", "budget", 74863, 803623, ["ridi_viharaya"]⟩,
   ⟨"ratnapura", "urban", "sabaragamuwa", "tropical", "all_year", "budget", 66828, 803992, ["gem_mining", "sinharaja_forest"]⟩,
   ⟨"batticaloa", "urban", "east", "tropical", "summer", "budget", 77310, 816925, ["batticaloa_lagoon"]⟩,
   ⟨"kalmunai", "urban", "east", "tropical", "summer", "budget", 74088, 818200, []⟩,
   ⟨"vavuniya", "urban", "north", "dry", "summer", "budget", 87514, 804971, []⟩,
   ⟨"mannar", "urban", "north", "dry", "summer", "budget", 89810, 799042, ["adams_bridge"]⟩,
   ⟨"puttalam", "urban", "north_western", "tropical", "all_year", "budget", 80362, 798283, ["kalpitiya"]⟩,
   ⟨"chilaw", "urban", "north_western", "tropical", "all_year", "budget", 75758, 797953, ["munneswaram_temple"]⟩,
   ⟨"matale", "urban", "central", "mild", "all_year", "budget", 74675, 806234, ["aluvihare_temple", "spice_gardens"]⟩,
   ⟨"ampara", "urban", "east", "tropical", "summer", "budget", 72978, 816722, []⟩,
   ⟨"monaragala", "urban", "uva", "dry", "all_year", "budget", 68723, 813507, []⟩,
   ⟨"kegalle", "urban", "sabaragamuwa", "mild", "all_year", "budget", 72523, 803436, ["pinnawala_elephant_orphanage"]⟩,
   ⟨"kalutara", "beach", "west", "tropical", "winter", "moderate", 65854, 799607, ["kalutara_temple"]⟩,
   ⟨"hikkaduwa", "beach", "south", "tropical", "winter", "moderate", 61409, 801001, ["coral_reefs", "turtle_hatchery"]⟩,
   ⟨"unawatuna", "beach", "south", "tropical", "winter", "moderate", 60108, 802490, ["beach"]⟩,
   ⟨"nilaveli", "beach", "east", "tropical", "summer", "moderate", 86977, 811884, ["pigeon_island_beach"]⟩,
   ⟨"passikudah", "beach", "east", "tropical", "summer", "moderate", 79362, 815579, ["beach"]⟩,
   ⟨"haputale", "hill_country", "uva", "cool", "all_year", "budget", 67679, 809564, ["liptons_seat"]⟩,
   ⟨"bandarawela", "hill_country", "uva", "mild", "all_year", "budget", 68323, 809856, []⟩,
   ⟨"gampaha", "urban", "west", "tropical", "all_year", "budget", 70905, 799996, []⟩,
   ⟨"kilinochchi", "urban", "north", "dry", "summer", "budget", 93965, 803999, []⟩,
   ⟨"mullativu", "urban", "north", "dry", "summer", "budget", 92671, 808142, []⟩]

/-- Cities the engine run adds to `self.recommended_cities`
(app/kb/rules.py): `recommend_exact_season_match` fires per (season
preference, city fact) pair and adds the city when the seasons are equal;
`recommend_all_year_for_any_season` adds all-year cities when the season
preference is the literal all_year value. -/
def engineRecommendedCities (season : String) (cities : List CityRec) : List String :=
  (cities.filter (fun c => c.best_season == season)).map CityRec.name ++
    (if season == "all_year" then
      (cities.filter (fun c => c.best_season == "all_year")).map CityRec.name
    else [])

/-- Cities the engine run adds to `self.avoided_cities` (app/kb/rules.py):
`avoid_east_coast_in_winter` fires per east-region city fact when the
season preference is the literal winter value;
`avoid_west_south_in_summer` fires for west or south cities that are not
all-year when the season preference is summer. -/
def engineAvoidedCities (season : String) (cities : List CityRec) : List String :=
  (if season == "winter" then
    (cities.filter (fun c => c.region == "east")).map CityRec.name
  else []) ++
    (if season == "summer" then
      (cities.filter
        (fun c => (c.region == "west" || c.region == "south") &&
          c.best_season != "all_year")).map CityRec.name
    else [])

/-- The season-derived part of `get_recommendations` (app/kb/rules.py):
`recommended` is `self.recommended_cities - self.avoided_cities` as Python
sets, `avoided` is `self.avoided_cities`.  The budget and interest rules
only feed the budget_appropriate / interest_match facts consumed by the
final and highly keys, not these two sets, so they take no part here. -/
structure RecOut where
  recommended : List String
  avoided : List String

/-- The `recommended` and `avoided` components of
`get_recommendations()` after `create_engine_with_preferences(season, ...)`
has run over all knowledge-base cities. -/
def get_recommendations (season : String) (cities : List CityRec) : RecOut :=
  { recommended :=
      (engineRecommendedCities season cities).filter
        (fun n => decide (n ∉ engineAvoidedCities season cities))
    avoided := engineAvoidedCities season cities }

/-- Four-node graph with two equal-length routes from s to t, the
neighbour y inserted before x: FIFO and lexicographic tie-breaks differ. -/
def cexGraph : Graph :=
  [("s", [("y", 1), ("x", 1)]), ("y", [("t", 1)]), ("x", [("t", 1)]), ("t", [])]

/-- Tentative-distance potential of one node in the bounded search:
stored value, or maxd+1 when unseen (every stored value is at most maxd). -/
def potB (maxd : Nat) (dist : DistMap) (c : String) : Nat :=
  match alookup dist c with
  | none => maxd + 1
  | some v => v

/-- Node `c`, holding value `v`, has had all its outgoing edges within the
bound relaxed against the map. -/
def RelaxedB (g : Graph) (maxd : Nat) (dist : DistMap) (c : String) (v : Nat) : Prop :=
  ∀ n w, edgeMem g c n w → v + w ≤ maxd → ∃ u, alookup dist n = some u ∧ u ≤ v + w

/-- Pointwise domination: the second map keeps every key of the first
with a value no larger. -/
def DistLe (dist2 dist : DistMap) : Prop :=
  ∀ x u, alookup dist x = some u → ∃ u2, alookup dist2 x = some u2 ∧ u2 ≤ u

/-- Loop invariant of the bounded search. -/
structure BInv (g : Graph) (source : String) (maxd : Nat)
    (dist : DistMap) (q : List (Nat × String)) : Prop where
  src0 : alookup dist source = some 0
  sound : ∀ c v, alookup dist c = some v → (∃ p, Chain g source c p v) ∧ v ≤ maxd
  qdist : ∀ k ∈ q, ∃ v, alookup dist k.2 = some v ∧ v ≤ k.1
  por : ∀ c v, alookup dist c = some v → ((v, c) ∈ q) ∨ RelaxedB g maxd dist c v

/-- Edge weight by dict lookup: `graph[a][b]` when both keys exist. -/
def edgeL (g : Graph) (a b : String) : Option Nat :=
  (alookup g a).bind (fun ns => alookup ns b)

/-- The adjacency view is symmetric: a[b] and b[a] always agree. -/
def Symm (g : Graph) : Prop := ∀ x y, edgeL g x y = edgeL g y x

/-- Every adjacency dict has no duplicate keys (true of Python dicts). -/
def WFadj (g : Graph) : Prop :=
  ∀ x ns, alookup g x = some ns → (ns.map Prod.fst).Nodup

/-- Total weight of the adjacency entries leaving one node. -/
def outWeight (g : Graph) (x : String) : Nat :=
  (((alookup g x).getD []).map Prod.snd).sum

/-- Node `c`, holding value `v`, has had all its outgoing edges relaxed
against the map (unbounded search). -/
def RelaxedA (g : Graph) (dist : DistMap) (c : String) (v : Nat) : Prop :=
  ∀ n w, edgeMem g c n w → ∃ u, alookup dist n = some u ∧ u ≤ v + w

/-- Loop invariant of `dijkstra_shortest_path`. -/
structure AInv (g : Graph) (source target : String)
    (dist : DistMap) (q : List Ent) : Prop where
  src0 : alookup dist source = some 0
  sound : ∀ c v, alookup dist c = some v → ∃ p, Chain g source c p v ∧ p.Nodup
  qchain : ∀ e ∈ q, Chain g source e.city e.path e.dist ∧ e.path.Nodup
  qdist : ∀ e ∈ q, ∃ v, alookup dist e.city = some v ∧ v ≤ e.dist
  qpref : ∀ e ∈ q, ∀ m ∈ e.path, ∃ u, alookup dist m = some u ∧ u ≤ e.dist
  por : ∀ c v, alookup dist c = some v →
    (∃ e ∈ q, e.city = c ∧ e.dist = v) ∨ RelaxedA g dist c v
  tgt : ∀ v, alookup dist target = some v → ∃ e ∈ q, e.city = target ∧ e.dist = v

theorem alookup_aupdate_self {β : Type} (m : List (String × β)) (c : String) (v : β) :
    alookup (aupdate m c v) c = some v := by
  induction m with
  | nil => simp [aupdate, alookup]
  | cons p rest ih =>
    obtain ⟨a, u⟩ := p
    by_cases h : a = c
    · simp [aupdate, h, alookup]
    · simp [aupdate, h, alookup, ih]

theorem alookup_aupdate_ne {β : Type} (m : List (String × β)) {c x : String} (v : β)
    (hx : x ≠ c) : alookup (aupdate m c v) x = alookup m x := by
  have hcx : ¬ (c = x) := fun h => hx h.symm
  induction m with
  | nil => simp [aupdate, alookup, hcx]
  | cons p rest ih =>
    obtain ⟨a, u⟩ := p
    by_cases h : a = c
    · subst h
      simp [aupdate, alookup, hcx]
    · simp only [aupdate, if_neg h, alookup]
      by_cases h2 : a = x
      · simp [h2]
      · simp [h2, ih]

theorem Chain.head_eq {g : Graph} {a c : String} {p : List String} {d : Nat}
    (h : Chain g a c p d) : p.head? = some a := by
  cases h <;> rfl

theorem Chain.ne_nil {g : Graph} {a c : String} {p : List String} {d : Nat}
    (h : Chain g a c p d) : p ≠ [] := by
  cases h <;> simp

/-- Extending a chain by one further edge at its end. -/
theorem Chain.append_edge {g : Graph} {a c n : String} {p : List String} {d w : Nat}
    (h : Chain g a c p d) (he : edgeMem g c n w) :
    Chain g a n (p ++ [n]) (d + w) := by
  induction h with
  | single x =>
    have : Chain g x n [x, n] (w + 0) := Chain.cons he (Chain.single n)
    simpa [Nat.add_comm] using this
  | cons hedge _ ih =>
    have h2 := Chain.cons hedge (ih he)
    simpa [Nat.add_assoc] using h2

theorem char_eq_of_toNat_eq {c d : Char} (h : c.toNat = d.toNat) : c = d :=
  Char.eq_of_val_eq (UInt32.ext h)

theorem charListLt_irrefl (l : List Char) : charListLt l l = false := by
  induction l with
  | nil => rfl
  | cons c cs ih => simp [charListLt, ih]

theorem charListLt_trans {a b c : List Char} (h1 : charListLt a b = true)
    (h2 : charListLt b c = true) : charListLt a c = true := by
  induction a generalizing b c with
  | nil =>
    cases c with
    | nil =>
      cases b with
      | nil => exact h2
      | cons d ds => simp [charListLt] at h2
    | cons e es => rfl
  | cons x xs ih =>
    cases b with
    | nil => simp [charListLt] at h1
    | cons y ys =>
      cases c with
      | nil => simp [charListLt] at h2
      | cons z zs =>
        simp only [charListLt] at h1 h2 ⊢
        by_cases hxy : x.toNat < y.toNat
        · by_cases hyz : y.toNat < z.toNat
          · simp [show x.toNat < z.toNat by omega]
          · by_cases hzy : z.toNat < y.toNat
            · rw [if_neg hyz, if_pos hzy] at h2
              simp at h2
            · simp [show x.toNat < z.toNat by omega]
        · by_cases hyx : y.toNat < x.toNat
          · rw [if_neg hxy, if_pos hyx] at h1
            simp at h1
          · by_cases hyz : y.toNat < z.toNat
            · simp [show x.toNat < z.toNat by omega]
            · by_cases hzy : z.toNat < y.toNat
              · rw [if_neg hyz, if_pos hzy] at h2
                simp at h2
              · rw [if_neg hxy, if_neg hyx] at h1
                rw [if_neg hyz, if_neg hzy] at h2
                rw [if_neg (show ¬ x.toNat < z.toNat by omega),
                  if_neg (show ¬ z.toNat < x.toNat by omega)]
                exact ih h1 h2

theorem charListLt_eq_of_both_false {a b : List Char} (h1 : charListLt a b = false)
    (h2 : charListLt b a = false) : a = b := by
  induction a generalizing b with
  | nil =>
    cases b with
    | nil => rfl
    | cons y ys => simp [charListLt] at h1
  | cons x xs ih =>
    cases b with
    | nil => simp [charListLt] at h2
    | cons y ys =>
      simp only [charListLt] at h1 h2
      by_cases hxy : x.toNat < y.toNat
      · rw [if_pos hxy] at h1
        simp at h1
      · by_cases hyx : y.toNat < x.toNat
        · rw [if_pos hyx] at h2
          simp at h2
        · rw [if_neg hxy, if_neg hyx] at h1
          rw [if_neg hyx, if_neg hxy] at h2
          rw [char_eq_of_toNat_eq (show x.toNat = y.toNat by omega), ih h1 h2]

theorem pyStrLt_le_trans {a b c : String} (h1 : pyStrLt b a = false)
    (h2 : pyStrLt c b = false) : pyStrLt c a = false := by
  unfold pyStrLt at h1 h2 ⊢
  by_contra hca
  rw [Bool.not_eq_false] at hca
  cases hab : charListLt a.data b.data with
  | true => rw [Bool.eq_false_iff] at h2; exact h2 (charListLt_trans hca hab)
  | false => rw [charListLt_eq_of_both_false hab h1] at hca
             rw [Bool.eq_false_iff] at h2; exact h2 hca

theorem keyLe_of_not_lt {k1 k2 : Nat × String} (h : ¬ keyLt k1 k2) : keyLe k2 k1 := by
  unfold keyLt at h
  push_neg at h
  rcases Nat.lt_or_ge k2.1 k1.1 with h1 | h1
  · exact Or.inl h1
  · have h2 := h.1
    have heq : k2.1 = k1.1 := by omega
    refine Or.inr ⟨heq, ?_⟩
    have h3 := h.2 heq.symm
    exact Bool.not_eq_true _ ▸ h3

theorem keyLe_trans {k1 k2 k3 : Nat × String} (h1 : keyLe k1 k2) (h2 : keyLe k2 k3) :
    keyLe k1 k3 := by
  rcases h1 with h1 | ⟨e1, l1⟩
  · rcases h2 with h2 | ⟨e2, l2⟩
    · exact Or.inl (Nat.lt_trans h1 h2)
    · exact Or.inl (e2 ▸ h1)
  · rcases h2 with h2 | ⟨e2, l2⟩
    · exact Or.inl (e1 ▸ h2)
    · exact Or.inr ⟨e1.trans e2, pyStrLt_le_trans l1 l2⟩

theorem keyLe_dist {k1 k2 : Nat × String} (h : keyLe k1 k2) : k1.1 ≤ k2.1 := by
  rcases h with h | ⟨e, _⟩
  · exact Nat.le_of_lt h
  · exact Nat.le_of_eq e

theorem keyLe_name {k1 k2 : Nat × String} (h : keyLe k1 k2) (he : k1.1 = k2.1) :
    pyStrLt k2.2 k1.2 = false := by
  rcases h with h | ⟨_, l⟩
  · omega
  · exact l

theorem keyLe_refl (k : Nat × String) : keyLe k k :=
  Or.inr ⟨rfl, charListLt_irrefl _⟩

theorem keyLe_of_lt {k1 k2 : Nat × String} (h : keyLt k1 k2) : keyLe k1 k2 := by
  rcases h with h | ⟨e, l⟩
  · exact Or.inl h
  · refine Or.inr ⟨e, ?_⟩
    cases h2 : pyStrLt k2.2 k1.2 with
    | false => rfl
    | true =>
      have := charListLt_trans l h2
      rw [charListLt_irrefl] at this
      cases this

theorem pickMin_mem {α : Type} (key : α → Nat × String) (b : α) (l : List α) :
    pickMin key b l ∈ b :: l := by
  induction l generalizing b with
  | nil => simp [pickMin]
  | cons x xs ih =>
    by_cases h : keyLt (key x) (key b)
    · simp only [pickMin, if_pos h]
      exact List.mem_cons.mpr (Or.inr (ih x))
    · have := ih b
      simp only [pickMin, if_neg h]
      rcases List.mem_cons.mp this with h2 | h2
      · exact List.mem_cons.mpr (Or.inl h2)
      · exact List.mem_cons.mpr (Or.inr (List.mem_cons.mpr (Or.inr h2)))

theorem pickMin_le {α : Type} (key : α → Nat × String) (b : α) (l : List α) :
    ∀ x ∈ b :: l, keyLe (key (pickMin key b l)) (key x) := by
  induction l generalizing b with
  | nil =>
    intro x hx
    rcases List.mem_cons.mp hx with h | h
    · exact h ▸ keyLe_refl _
    · simp at h
  | cons y ys ih =>
    intro x hx
    by_cases h : keyLt (key y) (key b)
    · simp only [pickMin, if_pos h]
      rcases List.mem_cons.mp hx with h2 | h2
      · subst h2
        exact keyLe_trans (ih y y (List.mem_cons_self y ys)) (keyLe_of_lt h)
      · exact ih y x h2
    · simp only [pickMin, if_neg h]
      rcases List.mem_cons.mp hx with h2 | h2
      · exact h2 ▸ ih b b (List.mem_cons_self b ys)
      · rcases List.mem_cons.mp h2 with h3 | h3
        · subst h3
          exact keyLe_trans (ih b b (List.mem_cons_self b ys)) (keyLe_of_not_lt h)
        · exact ih b x (List.mem_cons.mpr (Or.inr h3))

theorem eraseFirst_subset {α : Type} [DecidableEq α] (l : List α) (a : α) :
    ∀ x ∈ eraseFirst l a, x ∈ l := by
  induction l with
  | nil => intro x hx; simp [eraseFirst] at hx
  | cons y ys ih =>
    intro x hx
    by_cases h : y = a
    · simp only [eraseFirst, if_pos h] at hx
      exact List.mem_cons.mpr (Or.inr hx)
    · simp only [eraseFirst, if_neg h] at hx
      rcases List.mem_cons.mp hx with h2 | h2
      · exact List.mem_cons.mpr (Or.inl h2)
      · exact List.mem_cons.mpr (Or.inr (ih x h2))

theorem mem_eraseFirst_of_ne {α : Type} [DecidableEq α] {l : List α} {x a : α}
    (hx : x ∈ l) (hne : x ≠ a) : x ∈ eraseFirst l a := by
  induction l with
  | nil => simp at hx
  | cons y ys ih =>
    by_cases h : y = a
    · simp only [eraseFirst, if_pos h]
      rcases List.mem_cons.mp hx with h2 | h2
      · exact absurd (h2 ▸ h) hne
      · exact h2
    · simp only [eraseFirst, if_neg h]
      rcases List.mem_cons.mp hx with h2 | h2
      · exact List.mem_cons.mpr (Or.inl h2)
      · exact List.mem_cons.mpr (Or.inr (ih h2))

theorem length_eraseFirst_of_mem {α : Type} [DecidableEq α] {l : List α} {a : α}
    (ha : a ∈ l) : (eraseFirst l a).length + 1 = l.length := by
  induction l with
  | nil => simp at ha
  | cons y ys ih =>
    by_cases h : y = a
    · simp [eraseFirst, if_pos h]
    · have h2 : a ∈ ys := by
        rcases List.mem_cons.mp ha with h3 | h3
        · exact absurd h3.symm h
        · exact h3
      have h3 := ih h2
      simp only [eraseFirst, if_neg h, List.length_cons]
      omega

theorem popMin_eq_some {α : Type} [DecidableEq α] (key : α → Nat × String)
    {q : List α} {e : α} {q1 : List α} (h : popMin key q = some (e, q1)) :
    e ∈ q ∧ (∀ x ∈ q, keyLe (key e) (key x)) ∧ q1 = eraseFirst q e ∧
      q1.length + 1 = q.length := by
  match q with
  | [] => simp [popMin] at h
  | x :: xs =>
    simp only [popMin, Option.some.injEq, Prod.mk.injEq] at h
    obtain ⟨he, hq⟩ := h
    subst he
    refine ⟨pickMin_mem key x xs, pickMin_le key x xs, hq.symm, ?_⟩
    rw [hq.symm] at *
    exact length_eraseFirst_of_mem (pickMin_mem key x xs)

theorem popMin_none {α : Type} [DecidableEq α] (key : α → Nat × String)
    {q : List α} (h : popMin key q = none) : q = [] := by
  match q with
  | [] => rfl
  | x :: xs => simp [popMin] at h

theorem mem_insertSorted {α : Type} (key : α → Int) (x a : α) (l : List α) :
    a ∈ insertSorted key x l ↔ a = x ∨ a ∈ l := by
  induction l with
  | nil => simp [insertSorted]
  | cons y ys ih =>
    by_cases h : key x ≤ key y
    · simp [insertSorted, if_pos h]
    · simp only [insertSorted, if_neg h, List.mem_cons, ih]
      tauto

theorem mem_sortByKey {α : Type} (key : α → Int) (a : α) (l : List α) :
    a ∈ sortByKey key l ↔ a ∈ l := by
  induction l with
  | nil => simp [sortByKey]
  | cons y ys ih =>
    simp only [sortByKey, mem_insertSorted, List.mem_cons, ih]

theorem sortByKey_ne_nil {α : Type} (key : α → Int) {l : List α} (h : l ≠ []) :
    sortByKey key l ≠ [] := by
  match l with
  | [] => exact absurd rfl h
  | x :: xs =>
    intro hs
    have : x ∈ sortByKey key (x :: xs) := (mem_sortByKey key x (x :: xs)).mpr (by simp)
    rw [hs] at this
    simp at this

/-- C5. For every graph and every city name C, including names absent from
the graph, dijkstra_shortest_path(graph, C, C) returns exactly ([C], 0):
the source == target short-circuit fires before any graph lookup. -/
theorem shortest_path_self (g : Graph) (c : String) :
    dijkstra_shortest_path g c c = ([c], 0) := by
  simp [dijkstra_shortest_path]

/-- C6. For every graph and every pair of distinct city names where the
source or the target is absent from the graph, dijkstra_shortest_path
returns the no-path sentinel ([], 0); being a total function it raises
nothing. -/
theorem shortest_path_absent_endpoint (g : Graph) (s t : String) (hne : s ≠ t)
    (h : alookup g s = none ∨ alookup g t = none) :
    dijkstra_shortest_path g s t = ([], 0) := by
  rcases h with h | h <;> simp [dijkstra_shortest_path, hne, h]

/-- Witness for C6 at the empty graph and distinct names. -/
theorem shortest_path_absent_endpoint_witness :
    dijkstra_shortest_path [] "a" "b" = ([], 0) :=
  shortest_path_absent_endpoint [] "a" "b" (by decide) (Or.inl rfl)

theorem loadCities_ok_iff (cities : List CityRec) :
    loadCities cities = .ok () ↔
      ∀ c ∈ cities,
        (-900000 ≤ c.latitude ∧ c.latitude ≤ 900000) ∧
        (-1800000 ≤ c.longitude ∧ c.longitude ≤ 1800000) := by
  induction cities with
  | nil => simp [loadCities]
  | cons c rest ih =>
    by_cases h1 : (-900000 ≤ c.latitude ∧ c.latitude ≤ 900000)
    · by_cases h2 : (-1800000 ≤ c.longitude ∧ c.longitude ≤ 1800000)
      · simp only [loadCities, cityPostInit, if_neg (not_not_intro h1),
          if_neg (not_not_intro h2), List.mem_cons]
        constructor
        · intro hok x hx
          rcases hx with hx | hx
          · exact hx ▸ ⟨h1, h2⟩
          · exact (ih.mp hok) x hx
        · intro hall
          exact ih.mpr fun x hx => hall x (Or.inr hx)
      · simp only [loadCities, cityPostInit, if_neg (not_not_intro h1), if_pos h2]
        constructor
        · intro hok; cases hok
        · intro hall
          exact absurd ((hall c (List.mem_cons_self c rest)).2) h2
    · simp only [loadCities, cityPostInit, if_pos h1]
      constructor
      · intro hok; cases hok
      · intro hall
        exact absurd ((hall c (List.mem_cons_self c rest)).1) h1

theorem loadConnections_ok_iff (conns : List ConnectionRec) :
    loadConnections conns = .ok () ↔ ∀ k ∈ conns, 0 < k.distance_km := by
  induction conns with
  | nil => simp [loadConnections]
  | cons k rest ih =>
    by_cases h : k.distance_km ≤ 0
    · simp only [loadConnections, connectionPostInit, if_pos h]
      constructor
      · intro hok; cases hok
      · intro hall
        exact absurd (hall k (List.mem_cons_self k rest)) (not_lt_of_le h)
    · simp only [loadConnections, connectionPostInit, if_neg h, List.mem_cons]
      constructor
      · intro hok x hx
        rcases hx with hx | hx
        · exact hx ▸ lt_of_not_le h
        · exact (ih.mp hok) x hx
      · intro hall
        exact ih.mpr fun x hx => hall x (Or.inr hx)

/-- C3 (amended). The load succeeds exactly when every city coordinate is
in range and every connection distance is positive; it inspects nothing
else, so a connection naming an unknown city or a duplicated unordered
pair is accepted as-is (neither raising nor being dropped). -/
theorem loadSeed_ok_iff (cities : List CityRec) (conns : List ConnectionRec) :
    loadSeed cities conns = .ok () ↔
      ((∀ c ∈ cities,
          (-900000 ≤ c.latitude ∧ c.latitude ≤ 900000) ∧
          (-1800000 ≤ c.longitude ∧ c.longitude ≤ 1800000)) ∧
        ∀ k ∈ conns, 0 < k.distance_km) := by
  unfold loadSeed
  cases hl : loadCities cities with
  | error e =>
    simp only []
    constructor
    · intro hok; cases hok
    · intro hall
      rw [(loadCities_ok_iff cities).mpr hall.1] at hl
      cases hl
  | ok u =>
    cases u
    simp only []
    rw [loadConnections_ok_iff]
    constructor
    · intro hc
      exact ⟨(loadCities_ok_iff cities).mp hl, hc⟩
    · intro hall
      exact hall.2

/-- C3 counterexample: a connection whose endpoint "atlantis" appears in
no city catalog, and a duplicated unordered connection pair, both load
without any error, contradicting the claimed fatal failure. -/
theorem loadSeed_missing_checks_cex :
    loadSeed [⟨"colombo", "urban", "west", "tropical", "all_year", "variable", 69271, 798612, []⟩]
        [⟨"colombo", "atlantis", 10⟩] = .ok () ∧
      loadSeed [] [⟨"colombo", "kandy", 115⟩, ⟨"kandy", "colombo", 115⟩] = .ok () :=
  ⟨rfl, rfl⟩

/-- C4. After the engine runs with season preference winter, every
knowledge-base city of region east is in the avoided set, and is
consequently excluded from the recommended set that get_recommendations
returns (recommended_cities minus avoided_cities). -/
theorem winter_avoids_east (c : CityRec) (hc : c ∈ CITIES_DATA) (hr : c.region = "east") :
    c.name ∈ (get_recommendations "winter" CITIES_DATA).avoided ∧
      c.name ∉ (get_recommendations "winter" CITIES_DATA).recommended := by
  have hav : c.name ∈ engineAvoidedCities "winter" CITIES_DATA := by
    have h1 : engineAvoidedCities "winter" CITIES_DATA =
        (CITIES_DATA.filter (fun x => x.region == "east")).map CityRec.name := by
      simp [engineAvoidedCities]
    rw [h1]
    exact List.mem_map.mpr ⟨c, List.mem_filter.mpr ⟨hc, by simp [hr]⟩, rfl⟩
  refine ⟨hav, ?_⟩
  intro hmem
  have h3 := (List.mem_filter.mp hmem).2
  rw [decide_eq_true_eq] at h3
  exact h3 hav

/-- Witness for C4 at the east-coast city trincomalee. -/
theorem winter_avoids_east_witness :
    ("trincomalee" : String) ∈ (get_recommendations "winter" CITIES_DATA).avoided ∧
      ("trincomalee" : String) ∉ (get_recommendations "winter" CITIES_DATA).recommended :=
  winter_avoids_east
    ⟨"trincomalee", "beach", "east", "tropical", "summer", "moderate", 85874, 812152,
      ["pigeon_island"]⟩
    (by decide) rfl

/-- C9. recommend_trip is deterministic: its output is a function of the
set of city facts in the engine store, not of the store's iteration
order, and everything downstream (candidate filter, routing, stable sort)
is purely functional; two runs over any two enumerations of the same fact
store yield the same ordered result list. -/
theorem recommend_trip_deterministic (fc1 fc2 : List String)
    (season budget start : String) (endArg : Option String) (hp : fc1.Perm fc2) :
    recommendTripWith fc1 season budget start endArg =
      recommendTripWith fc2 season budget start endArg := by
  unfold recommendTripWith
  have hfun : ∀ dest : String,
      (if dest ∈ fc1 then (1 : Nat) else 0) = (if dest ∈ fc2 then 1 else 0) := by
    intro dest
    by_cases h : dest ∈ fc1
    · rw [if_pos h, if_pos (hp.mem_iff.mp h)]
    · rw [if_neg h, if_neg fun hh => h (hp.mem_iff.mpr hh)]
  dsimp only
  congr 1
  apply List.filterMap_congr
  intro dest _
  simp only [hfun]

/-- Witness for C9: two orderings of a two-fact store. -/
theorem recommend_trip_deterministic_witness :
    recommendTripWith ["kandy", "ella"] "all_year" "budget" "colombo" (some "ella") =
      recommendTripWith ["ella", "kandy"] "all_year" "budget" "colombo" (some "ella") :=
  recommend_trip_deterministic ["kandy", "ella"] ["ella", "kandy"] "all_year" "budget"
    "colombo" (some "ella") (List.Perm.swap "ella" "kandy" [])

/-- C1 counterexample: for season winter with budget high no city passes
the season/budget filter, so recommend_trip with end == start == colombo
returns the empty list: no result with route [colombo] and distance 0 is
present, although both arguments are valid catalog values and colombo is
a knowledge-base city. -/
theorem recommend_trip_same_endpoint_cex :
    tripCandidates "winter" "high" = [] ∧
      recommend_trip "winter" "high" "colombo" (some "colombo") = [] :=
  ⟨rfl, rfl⟩

/-- C1 (amended). Whenever at least one city passes the season/budget
filter, recommend_trip(season, budget, s, s) with s a knowledge-base city
returns a non-empty list containing a result with route [s] and
distance 0 (every emitted result is such a record, one per candidate). -/
theorem recommend_trip_same_endpoint (season budget s : String)
    (hs : s ∈ CITIES.map Prod.fst) (hc : tripCandidates season budget ≠ []) :
    ∃ r ∈ recommend_trip season budget s (some s), r.route = [s] ∧ r.distance = 0 := by
  have hsne : s ≠ "" := by
    intro h
    rw [h] at hs
    revert hs
    decide
  obtain ⟨dest, hdest⟩ := List.exists_mem_of_ne_nil _ hc
  refine ⟨⟨[s], 0, if dest ∈ CITIES.map Prod.fst then 1 else 0⟩, ?_, rfl, rfl⟩
  unfold recommend_trip recommendTripWith
  dsimp only
  rw [mem_sortByKey]
  apply List.mem_filterMap.mpr
  refine ⟨dest, hdest, ?_⟩
  have hd : dijkstraKb kbGraph (if s = "" then "colombo" else s) ((some s).getD dest)
      = ([s], 0) := by
    rw [if_neg hsne]
    simp [dijkstraKb]
  rw [hd]
  simp

/-- Witness for C1 (amended) at winter/moderate from colombo to itself. -/
theorem recommend_trip_same_endpoint_witness :
    ∃ r ∈ recommend_trip "winter" "moderate" "colombo" (some "colombo"),
      r.route = ["colombo"] ∧ r.distance = 0 :=
  recommend_trip_same_endpoint "winter" "moderate" "colombo" (by decide) (by decide)

/-- C2 counterexample: in cexGraph the code expands the equal-distance
entry with the lexicographically smaller city name (x) although the other
one (y) was enqueued first, so it returns the route through x while the
spec's FIFO tie-break returns the route through y. -/
theorem dijkstra_tiebreak_cex :
    dijkstra_shortest_path cexGraph "s" "t" = (["s", "x", "t"], 2) ∧
      dijkstraSpecFIFO cexGraph "s" "t" = (["s", "y", "t"], 2) ∧
      dijkstra_shortest_path cexGraph "s" "t" ≠ dijkstraSpecFIFO cexGraph "s" "t" := by
  refine ⟨rfl, rfl, ?_⟩
  decide

/-- C2 (amended). When two enqueued entries carry equal tentative
distance, the search pops and expands first the one that is least under
Python tuple comparison: among equal distances the lexicographically
smaller city name, regardless of insertion order. -/
theorem popMin_tiebreak_lex (q : List Ent) (e : Ent) (q1 : List Ent)
    (h : popMin entKey q = some (e, q1)) :
    ∀ x ∈ q, e.dist ≤ x.dist ∧ (x.dist = e.dist → pyStrLt x.city e.city = false) := by
  intro x hx
  have hle := (popMin_eq_some entKey h).2.1 x hx
  exact ⟨keyLe_dist hle, fun hd => keyLe_name hle (by simp [entKey, hd])⟩

/-- Witness for C2 (amended): the queue state of cexGraph after expanding
s, where y was enqueued before x at equal distance 1 and x is popped. -/
theorem popMin_tiebreak_lex_witness :
    (1 : Nat) ≤ 1 ∧ ((1 : Nat) = 1 → pyStrLt "y" "x" = false) :=
  popMin_tiebreak_lex [⟨1, "y", ["s", "y"]⟩, ⟨1, "x", ["s", "x"]⟩]
    ⟨1, "x", ["s", "x"]⟩ [⟨1, "y", ["s", "y"]⟩] (by decide)
    ⟨1, "y", ["s", "y"]⟩ (by decide)

theorem relaxList_mem (e : Ent) (ns : AdjList) :
    ∀ (dist : DistMap) (q : List Ent) (x : Ent), x ∈ (relaxList e ns dist q).2 →
      x ∈ q ∨ ∃ n w, (n, w) ∈ ns ∧ x = ⟨e.dist + w, n, e.path ++ [n]⟩ := by
  induction ns with
  | nil => exact fun dist q x hx => Or.inl hx
  | cons nw rest ih =>
    intro dist q x hx
    obtain ⟨n, w⟩ := nw
    have hstep :
        ∀ (d2 : DistMap) (q2 : List Ent), x ∈ (relaxList e rest d2 q2).2 →
          (x ∈ q2 ∨ ∃ n2 w2, (n2, w2) ∈ rest ∧ x = ⟨e.dist + w2, n2, e.path ++ [n2]⟩) :=
      fun d2 q2 hx2 => ih d2 q2 x hx2
    have hpush :
        x ∈ (relaxList e rest (aupdate dist n (e.dist + w))
            (⟨e.dist + w, n, e.path ++ [n]⟩ :: q)).2 →
          x ∈ q ∨ ∃ n2 w2, (n2, w2) ∈ (n, w) :: rest ∧
            x = ⟨e.dist + w2, n2, e.path ++ [n2]⟩ := by
      intro hx2
      rcases hstep _ _ hx2 with hm | ⟨n2, w2, hn2, hxe⟩
      · rcases List.mem_cons.mp hm with hm | hm
        · exact Or.inr ⟨n, w, List.mem_cons_self _ _, hm⟩
        · exact Or.inl hm
      · exact Or.inr ⟨n2, w2, List.mem_cons.mpr (Or.inr hn2), hxe⟩
    have hskip :
        x ∈ (relaxList e rest dist q).2 →
          x ∈ q ∨ ∃ n2 w2, (n2, w2) ∈ (n, w) :: rest ∧
            x = ⟨e.dist + w2, n2, e.path ++ [n2]⟩ := by
      intro hx2
      rcases hstep _ _ hx2 with hm | ⟨n2, w2, hn2, hxe⟩
      · exact Or.inl hm
      · exact Or.inr ⟨n2, w2, List.mem_cons.mpr (Or.inr hn2), hxe⟩
    simp only [relaxList] at hx
    split at hx
    · split at hx
      · exact hpush hx
      · exact hskip hx
    · exact hpush hx

theorem dijLoopE_sound (g : Graph) (source target : String) :
    ∀ (fuel : Nat) (seen : DistMap) (q : List Ent),
      (∀ x ∈ q, Chain g source x.city x.path x.dist) →
      ∀ p d, dijLoopE g target fuel seen q = (p, d) → p ≠ [] →
        Chain g source target p d := by
  intro fuel
  induction fuel with
  | zero =>
    intro seen q hq p d h hp
    rw [dijLoopE] at h
    injection h with h1 h2
    exact absurd h1.symm hp
  | succ fuel ih =>
    intro seen q hq p d h hp
    rw [dijLoopE] at h
    split at h
    · injection h with h1 h2
      exact absurd h1.symm hp
    · next e q1 hpop =>
      have hmeta := popMin_eq_some entKey hpop
      split at h
      · next htgt =>
        injection h with h1 h2
        have hche := hq e hmeta.1
        rw [htgt] at hche
        rw [← h1, ← h2]
        exact hche
      · refine ih _ _ ?_ p d h hp
        intro x hx
        rcases relaxList_mem e _ _ _ x hx with hm | ⟨n, w, hnw, hxe⟩
        · rw [hmeta.2.2.1] at hm
          exact hq x (eraseFirst_subset q e x hm)
        · subst hxe
          have hech := hq e hmeta.1
          cases halk : alookup g e.city with
          | some ns =>
            rw [halk] at hnw
            exact hech.append_edge ⟨ns, halk, hnw⟩
          | none =>
            rw [halk] at hnw
            simp at hnw

theorem dijkstraKb_sound (g : Graph) (s t : String) {p : List String} {d : Nat}
    (h : dijkstraKb g s t = (p, d)) (hp : p ≠ []) : Chain g s t p d := by
  unfold dijkstraKb at h
  by_cases hst : s = t
  · subst hst
    rw [if_pos rfl] at h
    injection h with h1 h2
    rw [← h1, ← h2]
    exact Chain.single s
  · rw [if_neg hst] at h
    refine dijLoopE_sound g s t _ _ _ ?_ p d h hp
    intro x hx
    rcases List.mem_cons.mp hx with hx | hx
    · subst hx
      exact Chain.single s
    · simp at hx

/-- C10. Every result recommend_trip returns carries a well-formed route:
non-empty, starting at the start city (colombo when start is the empty
string, which Python's `start or 'colombo'` maps there), walking only
edges of the distance graph, with the reported distance the sum of the
traversed edge weights (0 for a single-city route). -/
theorem recommend_trip_routes_wellformed (season budget start : String)
    (endArg : Option String) (r : RRes)
    (hr : r ∈ recommend_trip season budget start endArg) :
    r.route ≠ [] ∧
      r.route.head? = some (if start = "" then "colombo" else start) ∧
      ∃ c, Chain kbGraph (if start = "" then "colombo" else start) c r.route r.distance := by
  unfold recommend_trip recommendTripWith at hr
  dsimp only at hr
  rw [mem_sortByKey] at hr
  obtain ⟨dest, hdest, hsome⟩ := List.mem_filterMap.mp hr
  by_cases hnil :
      (dijkstraKb kbGraph (if start = "" then "colombo" else start) (endArg.getD dest)).1 = []
  · rw [if_pos hnil] at hsome
    cases hsome
  · rw [if_neg hnil] at hsome
    injection hsome with hsome
    rw [← hsome]
    have hsound := dijkstraKb_sound kbGraph (if start = "" then "colombo" else start)
      (endArg.getD dest)
      (p := (dijkstraKb kbGraph (if start = "" then "colombo" else start) (endArg.getD dest)).1)
      (d := (dijkstraKb kbGraph (if start = "" then "colombo" else start) (endArg.getD dest)).2)
      rfl hnil
    exact ⟨hnil, hsound.head_eq, ⟨_, hsound⟩⟩

/-- Witness for C10 at a concrete returned result. -/
theorem recommend_trip_routes_wellformed_witness :
    (["colombo"] : List String) ≠ [] ∧
      (["colombo"] : List String).head? = some "colombo" ∧
      ∃ c, Chain kbGraph "colombo" c ["colombo"] 0 :=
  recommend_trip_routes_wellformed "winter" "moderate" "colombo" (some "colombo")
    ⟨["colombo"], 0, 1⟩ (by decide)

theorem alookup_mem {β : Type} :
    ∀ (m : List (String × β)) (a : String) (v : β), alookup m a = some v → (a, v) ∈ m := by
  intro m
  induction m with
  | nil => intro a v h; cases h
  | cons p rest ih =>
    intro a v h
    obtain ⟨x, u⟩ := p
    by_cases hx : x = a
    · subst hx
      rw [alookup, if_pos rfl] at h
      injection h with h
      subst h
      exact List.mem_cons_self _ _
    · rw [alookup, if_neg hx] at h
      exact List.mem_cons.mpr (Or.inr (ih a v h))

theorem mem_nodesOf_of_edge (g : Graph) (source : String) {a b : String} {w : Nat}
    {ns : AdjList} (halk : alookup g a = some ns) (hb : (b, w) ∈ ns) :
    b ∈ nodesOf g source := by
  refine List.mem_cons.mpr (Or.inr (List.mem_flatMap.mpr ?_))
  exact ⟨(a, ns), alookup_mem g a ns halk,
    List.mem_cons.mpr (Or.inr (List.mem_map.mpr ⟨(b, w), hb, rfl⟩))⟩

theorem listSum_le_pointwise {f f2 : String → Nat} :
    ∀ (U : List String), (∀ c, f2 c ≤ f c) →
      (U.map f2).sum ≤ (U.map f).sum := by
  intro U hle
  induction U with
  | nil => simp
  | cons u us ih =>
    simp only [List.map_cons, List.sum_cons]
    exact Nat.add_le_add (hle u) ih

theorem listSum_lt_of_strict {f f2 : String → Nat} :
    ∀ (U : List String) (n : String), n ∈ U → (∀ c, f2 c ≤ f c) → f2 n < f n →
      (U.map f2).sum < (U.map f).sum := by
  intro U
  induction U with
  | nil => intro n hn; cases hn
  | cons u us ih =>
    intro n hn hle hlt
    simp only [List.map_cons, List.sum_cons]
    rcases List.mem_cons.mp hn with hn | hn
    · subst hn
      have := listSum_le_pointwise us hle
      omega
    · have h1 := hle u
      have := ih n hn hle hlt
      omega

theorem DistLe_refl (dist : DistMap) : DistLe dist dist :=
  fun _ u h => ⟨u, h, le_refl u⟩

theorem DistLe_trans {d3 d2 d1 : DistMap} (h32 : DistLe d3 d2) (h21 : DistLe d2 d1) :
    DistLe d3 d1 := by
  intro x u h
  obtain ⟨u2, h2, hle2⟩ := h21 x u h
  obtain ⟨u3, h3, hle3⟩ := h32 x u2 h2
  exact ⟨u3, h3, le_trans hle3 hle2⟩

theorem RelaxedB_mono {g : Graph} {maxd : Nat} {dist2 dist : DistMap} {c : String} {v : Nat}
    (hr : RelaxedB g maxd dist c v) (hle : DistLe dist2 dist) :
    RelaxedB g maxd dist2 c v := by
  intro n w he hw
  obtain ⟨u, hu, hule⟩ := hr n w he hw
  obtain ⟨u2, hu2, hule2⟩ := hle n u hu
  exact ⟨u2, hu2, le_trans hule2 hule⟩

theorem DistLe_aupdate_lt {dist : DistMap} {n : String} {nd u : Nat}
    (hu : alookup dist n = some u) (hlt : nd < u) : DistLe (aupdate dist n nd) dist := by
  intro x v h
  by_cases hx : x = n
  · subst hx
    rw [hu] at h
    injection h with h
    subst h
    exact ⟨nd, alookup_aupdate_self dist x nd, le_of_lt hlt⟩
  · exact ⟨v, by rw [alookup_aupdate_ne dist nd hx]; exact h, le_refl v⟩

theorem DistLe_aupdate_none {dist : DistMap} {n : String} {nd : Nat}
    (hu : alookup dist n = none) : DistLe (aupdate dist n nd) dist := by
  intro x v h
  by_cases hx : x = n
  · subst hx
    rw [hu] at h
    cases h
  · exact ⟨v, by rw [alookup_aupdate_ne dist nd hx]; exact h, le_refl v⟩

theorem potB_aupdate_self (maxd : Nat) (dist : DistMap) (n : String) (nd : Nat) :
    potB maxd (aupdate dist n nd) n = nd := by
  unfold potB
  rw [alookup_aupdate_self]

theorem potB_aupdate_ne (maxd : Nat) (dist : DistMap) {n x : String} (nd : Nat)
    (hx : x ≠ n) : potB maxd (aupdate dist n nd) x = potB maxd dist x := by
  unfold potB
  rw [alookup_aupdate_ne dist nd hx]

theorem bddRelax_spec (g : Graph) (source : String) (maxd d : Nat) (c : String)
    (hchain : ∃ p, Chain g source c p d) :
    ∀ (ns : AdjList) (dist : DistMap) (q : List (Nat × String)),
      (∀ nw ∈ ns, edgeMem g c nw.1 nw.2) →
      alookup dist c = some d →
      (∀ c2 v, alookup dist c2 = some v → (∃ p, Chain g source c2 p v) ∧ v ≤ maxd) →
      alookup dist source = some 0 →
      (∀ k ∈ q, ∃ v, alookup dist k.2 = some v ∧ v ≤ k.1) →
      (∀ c2 v, alookup dist c2 = some v → c2 ≠ c →
        ((v, c2) ∈ q) ∨ RelaxedB g maxd dist c2 v) →
      alookup (bddRelax maxd d ns dist q).1 c = some d ∧
      (∀ c2 v, alookup (bddRelax maxd d ns dist q).1 c2 = some v →
        (∃ p, Chain g source c2 p v) ∧ v ≤ maxd) ∧
      alookup (bddRelax maxd d ns dist q).1 source = some 0 ∧
      (∀ k ∈ (bddRelax maxd d ns dist q).2,
        ∃ v, alookup (bddRelax maxd d ns dist q).1 k.2 = some v ∧ v ≤ k.1) ∧
      (∀ c2 v, alookup (bddRelax maxd d ns dist q).1 c2 = some v → c2 ≠ c →
        ((v, c2) ∈ (bddRelax maxd d ns dist q).2) ∨
          RelaxedB g maxd (bddRelax maxd d ns dist q).1 c2 v) ∧
      (∀ nw ∈ ns, d + nw.2 ≤ maxd →
        ∃ u, alookup (bddRelax maxd d ns dist q).1 nw.1 = some u ∧ u ≤ d + nw.2) ∧
      DistLe (bddRelax maxd d ns dist q).1 dist ∧
      ∀ (U : List String), (∀ nw ∈ ns, nw.1 ∈ U) →
        2 * ((U.map (potB maxd (bddRelax maxd d ns dist q).1)).sum) +
            (bddRelax maxd d ns dist q).2.length ≤
          2 * ((U.map (potB maxd dist)).sum) + q.length := by
  intro ns
  induction ns with
  | nil =>
    intro dist q hns hc hsound hsrc hq hpor
    refine ⟨hc, hsound, hsrc, hq, hpor, ?_, DistLe_refl dist, ?_⟩
    · intro nw hnw
      cases hnw
    · intro U hU
      exact le_refl _
  | cons nw rest ih =>
    intro dist q hns hc hsound hsrc hq hpor
    obtain ⟨n, w⟩ := nw
    have hedge : edgeMem g c n w := hns (n, w) (List.mem_cons_self _ _)
    have hrest : ∀ nw2 ∈ rest, edgeMem g c nw2.1 nw2.2 :=
      fun nw2 h => hns nw2 (List.mem_cons.mpr (Or.inr h))
    by_cases hbound : d + w ≤ maxd
    · cases hlk : alookup dist n with
      | some u =>
        by_cases hlt : d + w < u
        · -- improving push
          have hne : n ≠ c := by
            intro he
            subst he
            rw [hc] at hlk
            injection hlk with hlk
            omega
          have hnsrc : n ≠ source := by
            intro he
            subst he
            rw [hsrc] at hlk
            injection hlk with hlk
            omega
          have hres : bddRelax maxd d ((n, w) :: rest) dist q =
              bddRelax maxd d rest (aupdate dist n (d + w)) ((d + w, n) :: q) := by
            simp only [bddRelax, if_pos hbound, hlk, if_pos hlt]
          rw [hres]
          have hstep : DistLe (aupdate dist n (d + w)) dist := DistLe_aupdate_lt hlk hlt
          have hc2 : alookup (aupdate dist n (d + w)) c = some d := by
            rw [alookup_aupdate_ne dist (d + w) (Ne.symm hne)]
            exact hc
          have hsound2 : ∀ c2 v, alookup (aupdate dist n (d + w)) c2 = some v →
              (∃ p, Chain g source c2 p v) ∧ v ≤ maxd := by
            intro c2 v hv
            by_cases hcn : c2 = n
            · subst hcn
              rw [alookup_aupdate_self] at hv
              injection hv with hv
              subst hv
              obtain ⟨p, hp⟩ := hchain
              exact ⟨⟨p ++ [c2], hp.append_edge hedge⟩, hbound⟩
            · rw [alookup_aupdate_ne dist (d + w) hcn] at hv
              exact hsound c2 v hv
          have hsrc2 : alookup (aupdate dist n (d + w)) source = some 0 := by
            rw [alookup_aupdate_ne dist (d + w) (Ne.symm hnsrc)]
            exact hsrc
          have hq2 : ∀ k ∈ (d + w, n) :: q,
              ∃ v, alookup (aupdate dist n (d + w)) k.2 = some v ∧ v ≤ k.1 := by
            intro k hk
            rcases List.mem_cons.mp hk with hk | hk
            · subst hk
              exact ⟨d + w, alookup_aupdate_self dist n (d + w), le_refl _⟩
            · obtain ⟨v, hv, hvle⟩ := hq k hk
              obtain ⟨v2, hv2, hv2le⟩ := hstep k.2 v hv
              exact ⟨v2, hv2, le_trans hv2le hvle⟩
          have hpor2 : ∀ c2 v, alookup (aupdate dist n (d + w)) c2 = some v → c2 ≠ c →
              ((v, c2) ∈ (d + w, n) :: q) ∨
                RelaxedB g maxd (aupdate dist n (d + w)) c2 v := by
            intro c2 v hv hc2c
            by_cases hcn : c2 = n
            · subst hcn
              rw [alookup_aupdate_self] at hv
              injection hv with hv
              subst hv
              exact Or.inl (List.mem_cons_self _ _)
            · rw [alookup_aupdate_ne dist (d + w) hcn] at hv
              rcases hpor c2 v hv hc2c with hp | hp
              · exact Or.inl (List.mem_cons.mpr (Or.inr hp))
              · exact Or.inr (RelaxedB_mono hp hstep)
          obtain ⟨o1, o2, o3, o4, o5, o6, o7, o8⟩ :=
            ih (aupdate dist n (d + w)) ((d + w, n) :: q) hrest hc2 hsound2 hsrc2 hq2 hpor2
          refine ⟨o1, o2, o3, o4, o5, ?_, DistLe_trans o7 hstep, ?_⟩
          · intro nw2 hnw2 hb2
            rcases List.mem_cons.mp hnw2 with h | h
            · subst h
              obtain ⟨u2, hu2, hu2le⟩ :=
                o7 n (d + w) (alookup_aupdate_self dist n (d + w))
              exact ⟨u2, hu2, hu2le⟩
            · exact o6 nw2 h hb2
          · intro U hU
            have hnU : n ∈ U := hU (n, w) (List.mem_cons_self _ _)
            have hUrest : ∀ nw2 ∈ rest, nw2.1 ∈ U :=
              fun nw2 h => hU nw2 (List.mem_cons.mpr (Or.inr h))
            have hptle : ∀ x, potB maxd (aupdate dist n (d + w)) x ≤ potB maxd dist x := by
              intro x
              by_cases hx : x = n
              · subst hx
                rw [potB_aupdate_self]
                simp only [potB, hlk]
                omega
              · rw [potB_aupdate_ne maxd dist (d + w) hx]
            have hptlt : potB maxd (aupdate dist n (d + w)) n < potB maxd dist n := by
              rw [potB_aupdate_self]
              simp only [potB, hlk]
              omega
            have hsumlt := listSum_lt_of_strict U n hnU hptle hptlt
            have h8 := o8 U hUrest
            simp only [List.length_cons] at h8
            omega
        · -- no improvement: skip
          have hres : bddRelax maxd d ((n, w) :: rest) dist q =
              bddRelax maxd d rest dist q := by
            simp only [bddRelax, if_pos hbound, hlk, if_neg hlt]
          rw [hres]
          obtain ⟨o1, o2, o3, o4, o5, o6, o7, o8⟩ :=
            ih dist q hrest hc hsound hsrc hq hpor
          refine ⟨o1, o2, o3, o4, o5, ?_, o7,
            fun U hU => o8 U (fun nw2 h => hU nw2 (List.mem_cons.mpr (Or.inr h)))⟩
          intro nw2 hnw2 hb2
          rcases List.mem_cons.mp hnw2 with h | h
          · obtain ⟨u2, hu2, hu2le⟩ := o7 n u hlk
            rw [h]
            refine ⟨u2, hu2, ?_⟩
            rw [h] at hb2
            omega
          · exact o6 nw2 h hb2
      | none =>
        -- fresh node: push
        have hne : n ≠ c := by
          intro he
          subst he
          rw [hc] at hlk
          cases hlk
        have hnsrc : n ≠ source := by
          intro he
          subst he
          rw [hsrc] at hlk
          cases hlk
        have hres : bddRelax maxd d ((n, w) :: rest) dist q =
            bddRelax maxd d rest (aupdate dist n (d + w)) ((d + w, n) :: q) := by
          simp only [bddRelax, if_pos hbound, hlk]
        rw [hres]
        have hstep : DistLe (aupdate dist n (d + w)) dist := DistLe_aupdate_none hlk
        have hc2 : alookup (aupdate dist n (d + w)) c = some d := by
          rw [alookup_aupdate_ne dist (d + w) (Ne.symm hne)]
          exact hc
        have hsound2 : ∀ c2 v, alookup (aupdate dist n (d + w)) c2 = some v →
            (∃ p, Chain g source c2 p v) ∧ v ≤ maxd := by
          intro c2 v hv
          by_cases hcn : c2 = n
          · subst hcn
            rw [alookup_aupdate_self] at hv
            injection hv with hv
            subst hv
            obtain ⟨p, hp⟩ := hchain
            exact ⟨⟨p ++ [c2], hp.append_edge hedge⟩, hbound⟩
          · rw [alookup_aupdate_ne dist (d + w) hcn] at hv
            exact hsound c2 v hv
        have hsrc2 : alookup (aupdate dist n (d + w)) source = some 0 := by
          rw [alookup_aupdate_ne dist (d + w) (Ne.symm hnsrc)]
          exact hsrc
        have hq2 : ∀ k ∈ (d + w, n) :: q,
            ∃ v, alookup (aupdate dist n (d + w)) k.2 = some v ∧ v ≤ k.1 := by
          intro k hk
          rcases List.mem_cons.mp hk with hk | hk
          · subst hk
            exact ⟨d + w, alookup_aupdate_self dist n (d + w), le_refl _⟩
          · obtain ⟨v, hv, hvle⟩ := hq k hk
            obtain ⟨v2, hv2, hv2le⟩ := hstep k.2 v hv
            exact ⟨v2, hv2, le_trans hv2le hvle⟩
        have hpor2 : ∀ c2 v, alookup (aupdate dist n (d + w)) c2 = some v → c2 ≠ c →
            ((v, c2) ∈ (d + w, n) :: q) ∨
              RelaxedB g maxd (aupdate dist n (d + w)) c2 v := by
          intro c2 v hv hc2c
          by_cases hcn : c2 = n
          · subst hcn
            rw [alookup_aupdate_self] at hv
            injection hv with hv
            subst hv
            exact Or.inl (List.mem_cons_self _ _)
          · rw [alookup_aupdate_ne dist (d + w) hcn] at hv
            rcases hpor c2 v hv hc2c with hp | hp
            · exact Or.inl (List.mem_cons.mpr (Or.inr hp))
            · exact Or.inr (RelaxedB_mono hp hstep)
        obtain ⟨o1, o2, o3, o4, o5, o6, o7, o8⟩ :=
          ih (aupdate dist n (d + w)) ((d + w, n) :: q) hrest hc2 hsound2 hsrc2 hq2 hpor2
        refine ⟨o1, o2, o3, o4, o5, ?_, DistLe_trans o7 hstep, ?_⟩
        · intro nw2 hnw2 hb2
          rcases List.mem_cons.mp hnw2 with h | h
          · subst h
            obtain ⟨u2, hu2, hu2le⟩ :=
              o7 n (d + w) (alookup_aupdate_self dist n (d + w))
            exact ⟨u2, hu2, hu2le⟩
          · exact o6 nw2 h hb2
        · intro U hU
          have hnU : n ∈ U := hU (n, w) (List.mem_cons_self _ _)
          have hUrest : ∀ nw2 ∈ rest, nw2.1 ∈ U :=
            fun nw2 h => hU nw2 (List.mem_cons.mpr (Or.inr h))
          have hptle : ∀ x, potB maxd (aupdate dist n (d + w)) x ≤ potB maxd dist x := by
            intro x
            by_cases hx : x = n
            · subst hx
              rw [potB_aupdate_self]
              simp only [potB, hlk]
              omega
            · rw [potB_aupdate_ne maxd dist (d + w) hx]
          have hptlt : potB maxd (aupdate dist n (d + w)) n < potB maxd dist n := by
            rw [potB_aupdate_self]
            simp only [potB, hlk]
            omega
          have hsumlt := listSum_lt_of_strict U n hnU hptle hptlt
          have h8 := o8 U hUrest
          simp only [List.length_cons] at h8
          omega
    · -- beyond the distance bound: skip
      have hres : bddRelax maxd d ((n, w) :: rest) dist q =
          bddRelax maxd d rest dist q := by
        simp only [bddRelax, if_neg hbound]
      rw [hres]
      obtain ⟨o1, o2, o3, o4, o5, o6, o7, o8⟩ :=
        ih dist q hrest hc hsound hsrc hq hpor
      refine ⟨o1, o2, o3, o4, o5, ?_, o7,
        fun U hU => o8 U (fun nw2 h => hU nw2 (List.mem_cons.mpr (Or.inr h)))⟩
      intro nw2 hnw2 hb2
      rcases List.mem_cons.mp hnw2 with h | h
      · rw [h] at hb2
        exact absurd hb2 hbound
      · exact o6 nw2 h hb2

theorem BInv_skip (g : Graph) (source : String) (maxd : Nat) {dist : DistMap}
    {q : List (Nat × String)} {d : Nat} {c : String} {v : Nat}
    (hinv : BInv g source maxd dist q) (hv : alookup dist c = some v) (hvd : v < d) :
    BInv g source maxd dist (eraseFirst q (d, c)) where
  src0 := hinv.src0
  sound := hinv.sound
  qdist := fun k hk => hinv.qdist k (eraseFirst_subset q (d, c) k hk)
  por := by
    intro c2 v2 hv2
    rcases hinv.por c2 v2 hv2 with hp | hp
    · left
      apply mem_eraseFirst_of_ne hp
      intro he
      injection he with h1 h2
      subst h2
      rw [hv] at hv2
      injection hv2 with hv2
      omega
    · exact Or.inr hp

theorem bddLoop_correct (g : Graph) (source : String) (maxd : Nat) :
    ∀ (fuel : Nat) (dist : DistMap) (q : List (Nat × String)),
      2 * (((nodesOf g source).map (potB maxd dist)).sum) + q.length < fuel →
      BInv g source maxd dist q →
      alookup (bddLoop g maxd fuel dist q) source = some 0 ∧
      (∀ c v, alookup (bddLoop g maxd fuel dist q) c = some v →
        (∃ p, Chain g source c p v) ∧ v ≤ maxd) ∧
      (∀ c v, alookup (bddLoop g maxd fuel dist q) c = some v →
        RelaxedB g maxd (bddLoop g maxd fuel dist q) c v) := by
  intro fuel
  induction fuel with
  | zero =>
    intro dist q hm hinv
    omega
  | succ fuel ih =>
    intro dist q hm hinv
    cases hpop : popMin (fun k => k) q with
    | none =>
      have hq0 : q = [] := popMin_none _ hpop
      have hres : bddLoop g maxd (fuel + 1) dist q = dist := by
        simp only [bddLoop, hpop]
      rw [hres]
      refine ⟨hinv.src0, hinv.sound, ?_⟩
      intro c v hv
      rcases hinv.por c v hv with hp | hp
      · rw [hq0] at hp
        cases hp
      · exact hp
    | some pr =>
      obtain ⟨k, q1⟩ := pr
      obtain ⟨d, c⟩ := k
      have hmeta := popMin_eq_some (fun k => k) hpop
      have hq1 : q1 = eraseFirst q (d, c) := hmeta.2.2.1
      have hlen : q1.length + 1 = q.length := hmeta.2.2.2
      obtain ⟨v, hv, hvled⟩ := hinv.qdist (d, c) hmeta.1
      have hvmax := (hinv.sound c v hv).2
      by_cases hmd : maxd < d
      · have hres : bddLoop g maxd (fuel + 1) dist q = bddLoop g maxd fuel dist q1 := by
          simp only [bddLoop, hpop, if_pos hmd]
        rw [hres]
        refine ih dist q1 (by omega) ?_
        rw [hq1]
        exact BInv_skip g source maxd hinv hv (by omega)
      · by_cases hvd : v < d
        · have hres : bddLoop g maxd (fuel + 1) dist q = bddLoop g maxd fuel dist q1 := by
            simp only [bddLoop, hpop, if_neg hmd, hv, if_pos hvd]
          rw [hres]
          refine ih dist q1 (by omega) ?_
          rw [hq1]
          exact BInv_skip g source maxd hinv hv hvd
        · have hveq : v = d := Nat.le_antisymm hvled (Nat.le_of_not_lt hvd)
          subst hveq
          have hres : bddLoop g maxd (fuel + 1) dist q =
              bddLoop g maxd fuel
                (bddRelax maxd v ((alookup g c).getD []) dist q1).1
                (bddRelax maxd v ((alookup g c).getD []) dist q1).2 := by
            simp only [bddLoop, hpop, if_neg hmd, hv, if_neg hvd]
          rw [hres]
          have hchain : ∃ p, Chain g source c p v := (hinv.sound c v hv).1
          have hedges : ∀ nw ∈ (alookup g c).getD [], edgeMem g c nw.1 nw.2 := by
            intro nw hnw
            cases halk : alookup g c with
            | some ns0 =>
              rw [halk] at hnw
              exact ⟨ns0, halk, hnw⟩
            | none =>
              rw [halk] at hnw
              cases hnw
          have hq1dist : ∀ k ∈ q1, ∃ u, alookup dist k.2 = some u ∧ u ≤ k.1 := by
            intro k hk
            rw [hq1] at hk
            exact hinv.qdist k (eraseFirst_subset q (v, c) k hk)
          have hq1por : ∀ c2 u, alookup dist c2 = some u → c2 ≠ c →
              ((u, c2) ∈ q1) ∨ RelaxedB g maxd dist c2 u := by
            intro c2 u hu hne
            rcases hinv.por c2 u hu with hp | hp
            · left
              rw [hq1]
              apply mem_eraseFirst_of_ne hp
              intro he
              injection he with h1 h2
              exact hne h2
            · exact Or.inr hp
          obtain ⟨o1, o2, o3, o4, o5, o6, o7, o8⟩ :=
            bddRelax_spec g source maxd v c hchain ((alookup g c).getD []) dist q1
              hedges hv (hinv.sound) hinv.src0 hq1dist hq1por
          have hUedges : ∀ nw ∈ (alookup g c).getD [], nw.1 ∈ nodesOf g source := by
            intro nw hnw
            obtain ⟨n2, w2⟩ := nw
            obtain ⟨ns, halk, hm2⟩ := hedges (n2, w2) hnw
            exact mem_nodesOf_of_edge g source halk hm2
          have hmr := o8 (nodesOf g source) hUedges
          refine ih _ _ (by omega) ?_
          exact {
            src0 := o3
            sound := o2
            qdist := o4
            por := by
              intro c2 u hu
              by_cases hne : c2 = c
              · subst hne
                rw [o1] at hu
                injection hu with hu
                subst hu
                right
                intro n w he hw
                obtain ⟨ns, halk, hm2⟩ := he
                have hnm : (n, w) ∈ (alookup g c2).getD [] := by
                  rw [halk]
                  exact hm2
                exact o6 (n, w) hnm hw
              · rcases o5 c2 u hu hne with hp | hp
                · exact Or.inl hp
                · exact Or.inr hp }

theorem stable_walk (g : Graph) (maxd : Nat) (R : DistMap)
    (hst : ∀ c v, alookup R c = some v → RelaxedB g maxd R c v) :
    ∀ {a z : String} {p : List String} {C : Nat}, Chain g a z p C →
      ∀ va, alookup R a = some va → va + C ≤ maxd →
        ∃ u, alookup R z = some u ∧ u ≤ va + C := by
  intro a z p C hchain
  induction hchain with
  | single x =>
    intro va hva hb
    exact ⟨va, hva, by omega⟩
  | cons he htail ih =>
    intro va hva hb
    obtain ⟨ub, hub, huble⟩ := hst _ va hva _ _ he (by omega)
    obtain ⟨uz, huz, huzle⟩ := ih ub hub (by omega)
    exact ⟨uz, huz, by omega⟩

/-- C7 counterexample: with a source absent from the graph the function
returns the empty mapping, so the source is not a key, although its
shortest-path distance to itself is 0 and 0 ≤ max_distance. -/
theorem get_cities_within_distance_cex :
    alookup (get_cities_within_distance [] "x" 5) "x" = none ∧
      Chain [] "x" "x" ["x"] 0 ∧ (0 : Nat) ≤ 5 :=
  ⟨rfl, Chain.single "x", by omega⟩

/-- C7 (amended). For every graph, bound, and source present in the
graph: a city is a key of the returned mapping exactly when some walk
from the source reaches it within the bound; each key maps to its exact
shortest walk distance; and the source is always present with distance 0. -/
theorem get_cities_within_distance_correct (g : Graph) (source : String) (maxd : Nat)
    (hs : alookup g source ≠ none) (c : String) :
    ((alookup (get_cities_within_distance g source maxd) c ≠ none) ↔
      ∃ p d, Chain g source c p d ∧ d ≤ maxd) ∧
    (∀ v, alookup (get_cities_within_distance g source maxd) c = some v →
      (∃ p, Chain g source c p v) ∧ v ≤ maxd ∧
        ∀ p d, Chain g source c p d → v ≤ d) ∧
    alookup (get_cities_within_distance g source maxd) source = some 0 := by
  have hnn : (alookup g source).isNone = false := by
    cases hsk : alookup g source with
    | none => exact absurd hsk hs
    | some _ => rfl
  have hres : get_cities_within_distance g source maxd =
      bddLoop g maxd (bddFuel g source maxd) [(source, 0)] [(0, source)] := by
    simp [get_cities_within_distance, hnn]
  have hinv0 : BInv g source maxd [(source, 0)] [(0, source)] := by
    refine ⟨?_, ?_, ?_, ?_⟩
    · rw [alookup, if_pos rfl]
    · intro c2 v hv
      by_cases hc2 : source = c2
      · rw [alookup, if_pos hc2] at hv
        injection hv with hv
        cases hc2
        rw [← hv]
        exact ⟨⟨[source], Chain.single source⟩, Nat.zero_le maxd⟩
      · rw [alookup, if_neg hc2, alookup] at hv
        cases hv
    · intro k hk
      rcases List.mem_cons.mp hk with hk | hk
      · subst hk
        exact ⟨0, by rw [alookup, if_pos rfl], le_refl 0⟩
      · cases hk
    · intro c2 v hv
      by_cases hc2 : source = c2
      · rw [alookup, if_pos hc2] at hv
        injection hv with hv
        cases hc2
        rw [← hv]
        exact Or.inl (List.mem_cons_self _ _)
      · rw [alookup, if_neg hc2, alookup] at hv
        cases hv
  have hfuel : 2 * (((nodesOf g source).map (potB maxd [(source, 0)])).sum) +
      ([(0, source)] : List (Nat × String)).length < bddFuel g source maxd := by
    have hb : ∀ x ∈ (nodesOf g source).map (potB maxd [(source, 0)]), x ≤ maxd + 1 := by
      intro x hx
      obtain ⟨c2, hc2, hxe⟩ := List.mem_map.mp hx
      rw [← hxe]
      unfold potB
      by_cases hc3 : source = c2
      · have hl : alookup [(source, 0)] c2 = some 0 := by rw [alookup, if_pos hc3]
        simp only [hl]
        omega
      · have hl : alookup [(source, 0)] c2 = none := by rw [alookup, if_neg hc3, alookup]
        simp only [hl]
        omega
    have hsum := List.sum_le_card_nsmul _ (maxd + 1) hb
    rw [List.length_map] at hsum
    rw [smul_eq_mul] at hsum
    unfold bddFuel
    simp only [List.length_cons, List.length_nil]
    have := Nat.mul_comm ((nodesOf g source).length) (maxd + 1)
    omega
  obtain ⟨r0, rsound, rstable⟩ :=
    bddLoop_correct g source maxd (bddFuel g source maxd) _ _ hfuel hinv0
  rw [hres]
  refine ⟨⟨?_, ?_⟩, ?_, r0⟩
  · intro hne
    cases hv : alookup (bddLoop g maxd (bddFuel g source maxd)
        [(source, 0)] [(0, source)]) c with
    | none => exact absurd hv hne
    | some v =>
      obtain ⟨⟨p, hp⟩, hle⟩ := rsound c v hv
      exact ⟨p, v, hp, hle⟩
  · rintro ⟨p, d, hp, hd⟩
    obtain ⟨u, hu, _⟩ := stable_walk g maxd _ rstable hp 0 r0 (by omega)
    rw [hu]
    simp
  · intro v hv
    obtain ⟨hex, hle⟩ := rsound c v hv
    refine ⟨hex, hle, ?_⟩
    intro p d hp
    by_cases hd : d ≤ maxd
    · obtain ⟨u, hu, hule⟩ := stable_walk g maxd _ rstable hp 0 r0 (by omega)
      rw [hv] at hu
      injection hu with hu
      omega
    · omega

/-- Witness for C7 (amended) on a two-node graph. -/
theorem get_cities_within_distance_correct_witness :
    ((alookup (get_cities_within_distance [("a", [("b", 5)]), ("b", [])] "a" 10) "b" ≠ none) ↔
      ∃ p d, Chain [("a", [("b", 5)]), ("b", [])] "a" "b" p d ∧ d ≤ 10) ∧
    (∀ v, alookup (get_cities_within_distance [("a", [("b", 5)]), ("b", [])] "a" 10) "b" =
        some v →
      (∃ p, Chain [("a", [("b", 5)]), ("b", [])] "a" "b" p v) ∧ v ≤ 10 ∧
        ∀ p d, Chain [("a", [("b", 5)]), ("b", [])] "a" "b" p d → v ≤ d) ∧
    alookup (get_cities_within_distance [("a", [("b", 5)]), ("b", [])] "a" 10) "a" = some 0 :=
  get_cities_within_distance_correct [("a", [("b", 5)]), ("b", [])] "a" 10 (by decide) "b"

theorem alookup_ginsert (g : Graph) (a b : String) (dd : Nat) (x : String) :
    alookup (ginsert g a b dd) x =
      if x = a then some (aupdate ((alookup g a).getD []) b dd)
      else alookup g x := by
  induction g with
  | nil =>
    by_cases hx : x = a
    · subst hx
      simp [ginsert, alookup, aupdate]
    · simp [ginsert, alookup, hx, Ne.symm hx]
  | cons p g2 ih =>
    obtain ⟨k, ns⟩ := p
    by_cases hk : k = a
    · subst hk
      by_cases hx : x = k
      · subst hx
        simp [ginsert, alookup]
      · simp [ginsert, alookup, hx, Ne.symm hx]
    · by_cases hx : x = k
      · subst hx
        have hxa : x ≠ a := fun h => hk (h ▸ rfl)
        simp [ginsert, hk, alookup, hxa]
      · simp only [ginsert, if_neg hk, alookup, if_neg (Ne.symm hx)]
        rw [ih]

theorem edgeL_ginsert (g : Graph) (a b : String) (dd : Nat) (x y : String) :
    edgeL (ginsert g a b dd) x y =
      if x = a ∧ y = b then some dd else edgeL g x y := by
  unfold edgeL
  rw [alookup_ginsert]
  by_cases hx : x = a
  · subst hx
    rw [if_pos rfl]
    by_cases hy : y = b
    · subst hy
      simp [alookup_aupdate_self]
    · rw [if_neg (fun h => hy h.2)]
      show alookup (aupdate ((alookup g x).getD []) b dd) y = _
      rw [alookup_aupdate_ne _ _ hy]
      cases alookup g x with
      | none => rfl
      | some ns => rfl
  · rw [if_neg hx, if_neg (fun h => hx h.1)]

theorem Symm_step (g : Graph) (a b : String) (dd : Nat) (hsym : Symm g) :
    Symm (ginsert (ginsert g a b dd) b a dd) := by
  intro x y
  rw [edgeL_ginsert, edgeL_ginsert, edgeL_ginsert, edgeL_ginsert]
  by_cases hxa : x = a <;> by_cases hxb : x = b <;>
    by_cases hya : y = a <;> by_cases hyb : y = b <;>
      simp [hxa, hxb, hya, hyb] <;> exact hsym _ _

theorem build_graph_symm (conns : List (String × String × Nat)) :
    Symm (build_graph conns) := by
  unfold build_graph
  suffices h : ∀ (l : List (String × String × Nat)) (g : Graph), Symm g →
      Symm (l.foldl (fun g c => ginsert (ginsert g c.1 c.2.1 c.2.2) c.2.1 c.1 c.2.2) g) by
    exact h conns [] (fun x y => rfl)
  intro l
  induction l with
  | nil => exact fun g hg => hg
  | cons cc rest ih =>
    intro g hg
    exact ih _ (Symm_step g cc.1 cc.2.1 cc.2.2 hg)

theorem aupdate_keys_subset {β : Type} :
    ∀ (m : List (String × β)) (b : String) (dd : β) (x : String),
      x ∈ (aupdate m b dd).map Prod.fst → x ∈ m.map Prod.fst ∨ x = b := by
  intro m
  induction m with
  | nil =>
    intro b dd x hx
    rw [show aupdate ([] : List (String × β)) b dd = [(b, dd)] from rfl] at hx
    rcases List.mem_map.mp hx with ⟨p, hp, hpe⟩
    rcases List.mem_cons.mp hp with hp | hp
    · right
      rw [← hpe, hp]
    · cases hp
  | cons p rest ih =>
    obtain ⟨k, v⟩ := p
    intro b dd x hx
    by_cases hk : k = b
    · rw [show aupdate ((k, v) :: rest) b dd = (b, dd) :: rest from by
        rw [aupdate, if_pos hk]] at hx
      rw [List.map_cons] at hx
      rcases List.mem_cons.mp hx with hx | hx
      · exact Or.inr hx
      · left
        rw [List.map_cons]
        exact List.mem_cons.mpr (Or.inr hx)
    · rw [show aupdate ((k, v) :: rest) b dd = (k, v) :: aupdate rest b dd from by
        rw [aupdate, if_neg hk]] at hx
      rw [List.map_cons] at hx
      rcases List.mem_cons.mp hx with hx | hx
      · left
        rw [List.map_cons]
        exact List.mem_cons.mpr (Or.inl hx)
      · rcases ih b dd x hx with h2 | h2
        · left
          rw [List.map_cons]
          exact List.mem_cons.mpr (Or.inr h2)
        · exact Or.inr h2

theorem aupdate_nodupkeys {β : Type} :
    ∀ (m : List (String × β)) (b : String) (dd : β),
      (m.map Prod.fst).Nodup → ((aupdate m b dd).map Prod.fst).Nodup := by
  intro m
  induction m with
  | nil =>
    intro b dd _
    simp [aupdate]
  | cons p rest ih =>
    obtain ⟨k, v⟩ := p
    intro b dd h
    rw [List.map_cons, List.nodup_cons] at h
    by_cases hk : k = b
    · rw [show aupdate ((k, v) :: rest) b dd = (b, dd) :: rest from by
        rw [aupdate, if_pos hk]]
      rw [List.map_cons, List.nodup_cons]
      subst hk
      exact h
    · rw [show aupdate ((k, v) :: rest) b dd = (k, v) :: aupdate rest b dd from by
        rw [aupdate, if_neg hk]]
      rw [List.map_cons, List.nodup_cons]
      refine ⟨?_, ih b dd h.2⟩
      intro hmem
      rcases aupdate_keys_subset rest b dd k hmem with h2 | h2
      · exact h.1 h2
      · exact hk h2

theorem WFadj_ginsert (g : Graph) (a b : String) (dd : Nat) (h : WFadj g) :
    WFadj (ginsert g a b dd) := by
  intro x ns hx
  rw [alookup_ginsert] at hx
  by_cases hxa : x = a
  · rw [if_pos hxa] at hx
    injection hx with hx
    rw [← hx]
    apply aupdate_nodupkeys
    cases hga : alookup g a with
    | none => simp
    | some ns0 =>
      simp only [Option.getD_some]
      exact h a ns0 hga
  · rw [if_neg hxa] at hx
    exact h x ns hx

theorem build_graph_wf (conns : List (String × String × Nat)) :
    WFadj (build_graph conns) := by
  unfold build_graph
  suffices h : ∀ (l : List (String × String × Nat)) (g : Graph), WFadj g →
      WFadj (l.foldl (fun g c => ginsert (ginsert g c.1 c.2.1 c.2.2) c.2.1 c.1 c.2.2) g) by
    refine h conns [] ?_
    intro x ns hx
    cases hx
  intro l
  induction l with
  | nil => exact fun g hg => hg
  | cons cc rest ih =>
    intro g hg
    exact ih _ (WFadj_ginsert _ cc.2.1 cc.1 cc.2.2 (WFadj_ginsert g cc.1 cc.2.1 cc.2.2 hg))

theorem alookup_of_mem_nodupkeys {β : Type} :
    ∀ (ns : List (String × β)), (ns.map Prod.fst).Nodup →
      ∀ (b : String) (w : β), (b, w) ∈ ns → alookup ns b = some w := by
  intro ns
  induction ns with
  | nil =>
    intro _ b w hm
    cases hm
  | cons p rest ih =>
    obtain ⟨k, v⟩ := p
    intro h b w hm
    rw [List.map_cons, List.nodup_cons] at h
    rcases List.mem_cons.mp hm with hm | hm
    · injection hm with hm1 hm2
      subst hm1
      subst hm2
      rw [alookup, if_pos rfl]
    · by_cases hk : k = b
      · subst hk
        exact absurd (List.mem_map.mpr ⟨(k, w), hm, rfl⟩) h.1
      · rw [alookup, if_neg hk]
        exact ih h.2 b w hm

theorem edgeMem_iff_edgeL {g : Graph} (hwf : WFadj g) (a b : String) (w : Nat) :
    edgeMem g a b w ↔ edgeL g a b = some w := by
  constructor
  · rintro ⟨ns, halk, hm⟩
    unfold edgeL
    rw [halk]
    exact alookup_of_mem_nodupkeys ns (hwf a ns halk) b w hm
  · intro h
    unfold edgeL at h
    cases halk : alookup g a with
    | none =>
      rw [halk] at h
      cases h
    | some ns =>
      rw [halk] at h
      exact ⟨ns, halk, alookup_mem ns b w h⟩

theorem chain_reverse {g : Graph} (hsym : Symm g) (hwf : WFadj g) :
    ∀ {a c : String} {p : List String} {d : Nat}, Chain g a c p d →
      Chain g c a p.reverse d := by
  intro a c p d h
  induction h with
  | single x =>
    simpa using Chain.single x
  | @cons a2 b2 c2 w2 d2 p2 he htail ih =>
    have hF : edgeL g a2 b2 = some w2 := (edgeMem_iff_edgeL hwf a2 b2 w2).mp he
    have hB : edgeMem g b2 a2 w2 :=
      (edgeMem_iff_edgeL hwf b2 a2 w2).mpr ((hsym a2 b2) ▸ hF)
    have happ := ih.append_edge hB
    rw [List.reverse_cons, Nat.add_comm]
    exact happ

theorem weight_le_wsum {ns : AdjList} {b : String} {w : Nat} (h : (b, w) ∈ ns) :
    w ≤ (ns.map Prod.snd).sum := by
  induction ns with
  | nil => cases h
  | cons p rest ih =>
    rw [List.map_cons, List.sum_cons]
    rcases List.mem_cons.mp h with h2 | h2
    · rw [← h2]
      omega
    · have := ih h2
      omega

theorem chain_cost_le_sumOut {g : Graph} :
    ∀ {a c : String} {p : List String} {v : Nat}, Chain g a c p v →
      v ≤ (p.map (outWeight g)).sum := by
  intro a c p v h
  induction h with
  | single x => simp
  | @cons a2 b2 c2 w2 d2 p2 he _ ih =>
    obtain ⟨ns, halk, hm⟩ := he
    have hw : w2 ≤ outWeight g a2 := by
      unfold outWeight
      rw [halk]
      exact weight_le_wsum hm
    rw [List.map_cons, List.sum_cons]
    omega

theorem listSum_le_pointwise_mem {f f2 : String → Nat} :
    ∀ (U : List String), (∀ c ∈ U, f2 c ≤ f c) → (U.map f2).sum ≤ (U.map f).sum := by
  intro U
  induction U with
  | nil => simp
  | cons u us ih =>
    intro h
    simp only [List.map_cons, List.sum_cons]
    have h1 := h u (List.mem_cons_self u us)
    have h2 := ih (fun c hc => h c (List.mem_cons.mpr (Or.inr hc)))
    omega

theorem sumOut_nodup_le :
    ∀ (g : Graph) (p : List String), p.Nodup →
      (p.map (outWeight g)).sum ≤ sumWeights g := by
  intro g
  induction g with
  | nil =>
    intro p _
    have hz : ∀ x ∈ p.map (outWeight []), x = 0 := by
      intro x hx
      obtain ⟨c, _, hce⟩ := List.mem_map.mp hx
      rw [← hce]
      rfl
    rw [List.sum_eq_zero hz]
    exact Nat.zero_le _
  | cons kv g2 ih =>
    obtain ⟨a, ns⟩ := kv
    intro p hnd
    have hsw : sumWeights ((a, ns) :: g2) = (ns.map Prod.snd).sum + sumWeights g2 := by
      unfold sumWeights
      rw [List.map_cons, List.sum_cons]
    have hout_ne : ∀ x, x ≠ a → outWeight ((a, ns) :: g2) x = outWeight g2 x := by
      intro x hx
      unfold outWeight
      rw [alookup, if_neg (fun h => hx h.symm)]
    by_cases ha : a ∈ p
    · have hperm : p.Perm (a :: p.erase a) := List.perm_cons_erase ha
      have hsump : (p.map (outWeight ((a, ns) :: g2))).sum =
          ((a :: p.erase a).map (outWeight ((a, ns) :: g2))).sum :=
        (hperm.map (outWeight ((a, ns) :: g2))).sum_eq
      rw [hsump, List.map_cons, List.sum_cons]
      have houta : outWeight ((a, ns) :: g2) a = (ns.map Prod.snd).sum := by
        unfold outWeight
        rw [alookup, if_pos rfl, Option.getD_some]
      have herased : ((p.erase a).map (outWeight ((a, ns) :: g2))).sum ≤ sumWeights g2 := by
        have hle : ∀ c ∈ p.erase a,
            outWeight ((a, ns) :: g2) c ≤ outWeight g2 c := by
          intro c hc
          have hcne : c ≠ a := ((List.Nodup.mem_erase_iff hnd).mp hc).1
          rw [hout_ne c hcne]
        calc ((p.erase a).map (outWeight ((a, ns) :: g2))).sum
            ≤ ((p.erase a).map (outWeight g2)).sum := listSum_le_pointwise_mem _ hle
          _ ≤ sumWeights g2 := ih (p.erase a) (hnd.erase a)
      rw [hsw, houta]
      omega
    · have hle : ∀ c ∈ p, outWeight ((a, ns) :: g2) c ≤ outWeight g2 c := by
        intro c hc
        have hcne : c ≠ a := fun h => ha (h ▸ hc)
        rw [hout_ne c hcne]
      calc (p.map (outWeight ((a, ns) :: g2))).sum
          ≤ (p.map (outWeight g2)).sum := listSum_le_pointwise_mem _ hle
        _ ≤ sumWeights g2 := ih p hnd
        _ ≤ sumWeights ((a, ns) :: g2) := by rw [hsw]; omega

theorem chain_nodup_cost_le {g : Graph} {a c : String} {p : List String} {v : Nat}
    (h : Chain g a c p v) (hnd : p.Nodup) : v ≤ sumWeights g :=
  le_trans (chain_cost_le_sumOut h) (sumOut_nodup_le g p hnd)

theorem nodup_append_singleton {p : List String} {n : String}
    (hnd : p.Nodup) (hn : n ∉ p) : (p ++ [n]).Nodup := by
  rw [List.nodup_append]
  exact ⟨hnd, List.nodup_singleton n, fun x hx hmem => by
    rw [List.mem_singleton] at hmem
    exact hn (hmem ▸ hx)⟩

theorem RelaxedB_mono_A {g : Graph} {dist2 dist : DistMap} {c : String} {v : Nat}
    (h : RelaxedA g dist c v) (hle : DistLe dist2 dist) : RelaxedA g dist2 c v := by
  intro n w he
  obtain ⟨u, hu, hule⟩ := h n w he
  obtain ⟨u2, hu2, hu2le⟩ := hle n u hu
  exact ⟨u2, hu2, le_trans hu2le hule⟩

theorem relaxList_spec (g : Graph) (source target : String) (e : Ent)
    (hech : Chain g source e.city e.path e.dist) (hend : e.path.Nodup) :
    ∀ (ns : AdjList) (dist : DistMap) (q : List Ent),
      (∀ nw ∈ ns, edgeMem g e.city nw.1 nw.2) →
      alookup dist e.city = some e.dist →
      (∀ m ∈ e.path, ∃ u, alookup dist m = some u ∧ u ≤ e.dist) →
      (∀ c v, alookup dist c = some v → ∃ p, Chain g source c p v ∧ p.Nodup) →
      alookup dist source = some 0 →
      (∀ e2 ∈ q, Chain g source e2.city e2.path e2.dist ∧ e2.path.Nodup) →
      (∀ e2 ∈ q, ∃ v, alookup dist e2.city = some v ∧ v ≤ e2.dist) →
      (∀ e2 ∈ q, ∀ m ∈ e2.path, ∃ u, alookup dist m = some u ∧ u ≤ e2.dist) →
      (∀ c v, alookup dist c = some v → c ≠ e.city →
        (∃ e2 ∈ q, e2.city = c ∧ e2.dist = v) ∨ RelaxedA g dist c v) →
      (∀ v, alookup dist target = some v → ∃ e2 ∈ q, e2.city = target ∧ e2.dist = v) →
      alookup (relaxList e ns dist q).1 e.city = some e.dist ∧
      (∀ c v, alookup (relaxList e ns dist q).1 c = some v →
        ∃ p, Chain g source c p v ∧ p.Nodup) ∧
      alookup (relaxList e ns dist q).1 source = some 0 ∧
      (∀ e2 ∈ (relaxList e ns dist q).2,
        Chain g source e2.city e2.path e2.dist ∧ e2.path.Nodup) ∧
      (∀ e2 ∈ (relaxList e ns dist q).2,
        ∃ v, alookup (relaxList e ns dist q).1 e2.city = some v ∧ v ≤ e2.dist) ∧
      (∀ e2 ∈ (relaxList e ns dist q).2, ∀ m ∈ e2.path,
        ∃ u, alookup (relaxList e ns dist q).1 m = some u ∧ u ≤ e2.dist) ∧
      (∀ c v, alookup (relaxList e ns dist q).1 c = some v → c ≠ e.city →
        (∃ e2 ∈ (relaxList e ns dist q).2, e2.city = c ∧ e2.dist = v) ∨
          RelaxedA g (relaxList e ns dist q).1 c v) ∧
      (∀ v, alookup (relaxList e ns dist q).1 target = some v →
        ∃ e2 ∈ (relaxList e ns dist q).2, e2.city = target ∧ e2.dist = v) ∧
      (∀ nw ∈ ns, ∃ u, alookup (relaxList e ns dist q).1 nw.1 = some u ∧
        u ≤ e.dist + nw.2) ∧
      DistLe (relaxList e ns dist q).1 dist ∧
      ∀ (U : List String), (∀ nw ∈ ns, nw.1 ∈ U) →
        2 * ((U.map (potB (sumWeights g) (relaxList e ns dist q).1)).sum) +
            (relaxList e ns dist q).2.length ≤
          2 * ((U.map (potB (sumWeights g) dist)).sum) + q.length := by
  intro ns
  induction ns with
  | nil =>
    intro dist q hns h1 h2 h3 h4 h5 h6 h7 h8 h9
    refine ⟨h1, h3, h4, h5, h6, h7, h8, h9, ?_, DistLe_refl dist, ?_⟩
    · intro nw hnw
      cases hnw
    · intro U hU
      exact le_refl _
  | cons nw rest ih =>
    intro dist q hns h1 h2 h3 h4 h5 h6 h7 h8 h9
    obtain ⟨n, w⟩ := nw
    have hedge : edgeMem g e.city n w := hns (n, w) (List.mem_cons_self _ _)
    have hrest : ∀ nw2 ∈ rest, edgeMem g e.city nw2.1 nw2.2 :=
      fun nw2 h => hns nw2 (List.mem_cons.mpr (Or.inr h))
    cases hlk : alookup dist n with
    | some u =>
      by_cases hlt : e.dist + w < u
      · -- improving push
        have hnotin : n ∉ e.path := by
          intro hmem
          obtain ⟨u2, hu2, hu2le⟩ := h2 n hmem
          rw [hlk] at hu2
          injection hu2 with hu2
          omega
        have hnec : n ≠ e.city := by
          intro he2
          rw [he2, h1] at hlk
          injection hlk with hlk
          omega
        have hnesrc : n ≠ source := by
          intro he2
          rw [he2, h4] at hlk
          injection hlk with hlk
          omega
        have hres : relaxList e ((n, w) :: rest) dist q =
            relaxList e rest (aupdate dist n (e.dist + w))
              (⟨e.dist + w, n, e.path ++ [n]⟩ :: q) := by
          simp only [relaxList, hlk, if_pos hlt]
        rw [hres]
        have hchain2 : Chain g source n (e.path ++ [n]) (e.dist + w) :=
          hech.append_edge hedge
        have hnd2 : (e.path ++ [n]).Nodup := nodup_append_singleton hend hnotin
        have hstep : DistLe (aupdate dist n (e.dist + w)) dist := DistLe_aupdate_lt hlk hlt
        have g1 : alookup (aupdate dist n (e.dist + w)) e.city = some e.dist := by
          rw [alookup_aupdate_ne dist _ (Ne.symm hnec)]
          exact h1
        have g2 : ∀ m ∈ e.path, ∃ u2,
            alookup (aupdate dist n (e.dist + w)) m = some u2 ∧ u2 ≤ e.dist := by
          intro m hm
          have hmne : m ≠ n := fun h => hnotin (h ▸ hm)
          rw [alookup_aupdate_ne dist _ hmne]
          exact h2 m hm
        have g3 : ∀ c v, alookup (aupdate dist n (e.dist + w)) c = some v →
            ∃ p, Chain g source c p v ∧ p.Nodup := by
          intro c v hv
          by_cases hcn : c = n
          · subst hcn
            rw [alookup_aupdate_self] at hv
            injection hv with hv
            rw [← hv]
            exact ⟨e.path ++ [c], hchain2, hnd2⟩
          · rw [alookup_aupdate_ne dist _ hcn] at hv
            exact h3 c v hv
        have g4 : alookup (aupdate dist n (e.dist + w)) source = some 0 := by
          rw [alookup_aupdate_ne dist _ (Ne.symm hnesrc)]
          exact h4
        have g5 : ∀ e2 ∈ (⟨e.dist + w, n, e.path ++ [n]⟩ : Ent) :: q,
            Chain g source e2.city e2.path e2.dist ∧ e2.path.Nodup := by
          intro e2 he2
          rcases List.mem_cons.mp he2 with he2 | he2
          · rw [he2]
            exact ⟨hchain2, hnd2⟩
          · exact h5 e2 he2
        have g6 : ∀ e2 ∈ (⟨e.dist + w, n, e.path ++ [n]⟩ : Ent) :: q,
            ∃ v, alookup (aupdate dist n (e.dist + w)) e2.city = some v ∧ v ≤ e2.dist := by
          intro e2 he2
          rcases List.mem_cons.mp he2 with he2 | he2
          · rw [he2]
            exact ⟨e.dist + w, alookup_aupdate_self dist n (e.dist + w), le_refl _⟩
          · obtain ⟨v, hv, hvle⟩ := h6 e2 he2
            obtain ⟨v2, hv2, hv2le⟩ := hstep e2.city v hv
            exact ⟨v2, hv2, le_trans hv2le hvle⟩
        have g7 : ∀ e2 ∈ (⟨e.dist + w, n, e.path ++ [n]⟩ : Ent) :: q, ∀ m ∈ e2.path,
            ∃ u2, alookup (aupdate dist n (e.dist + w)) m = some u2 ∧ u2 ≤ e2.dist := by
          intro e2 he2 m hm
          rcases List.mem_cons.mp he2 with he2 | he2
          · rw [he2] at hm ⊢
            rcases List.mem_append.mp hm with hm | hm
            · obtain ⟨u2, hu2, hu2le⟩ := g2 m hm
              refine ⟨u2, hu2, ?_⟩
              show u2 ≤ e.dist + w
              omega
            · rw [List.mem_singleton] at hm
              rw [hm]
              exact ⟨e.dist + w, alookup_aupdate_self dist n (e.dist + w), le_refl _⟩
          · obtain ⟨u2, hu2, hu2le⟩ := h7 e2 he2 m hm
            obtain ⟨u3, hu3, hu3le⟩ := hstep m u2 hu2
            exact ⟨u3, hu3, le_trans hu3le hu2le⟩
        have g8 : ∀ c v, alookup (aupdate dist n (e.dist + w)) c = some v → c ≠ e.city →
            (∃ e2 ∈ (⟨e.dist + w, n, e.path ++ [n]⟩ : Ent) :: q, e2.city = c ∧ e2.dist = v) ∨
              RelaxedA g (aupdate dist n (e.dist + w)) c v := by
          intro c v hv hcne
          by_cases hcn : c = n
          · subst hcn
            rw [alookup_aupdate_self] at hv
            injection hv with hv
            exact Or.inl ⟨⟨e.dist + w, c, e.path ++ [c]⟩, List.mem_cons_self _ _, rfl, hv⟩
          · rw [alookup_aupdate_ne dist _ hcn] at hv
            rcases h8 c v hv hcne with hp | hp
            · obtain ⟨e2, he2, he2c, he2d⟩ := hp
              exact Or.inl ⟨e2, List.mem_cons.mpr (Or.inr he2), he2c, he2d⟩
            · exact Or.inr (RelaxedB_mono_A hp hstep)
        have g9 : ∀ v, alookup (aupdate dist n (e.dist + w)) target = some v →
            ∃ e2 ∈ (⟨e.dist + w, n, e.path ++ [n]⟩ : Ent) :: q,
              e2.city = target ∧ e2.dist = v := by
          intro v hv
          by_cases htn : target = n
          · rw [htn, alookup_aupdate_self] at hv
            injection hv with hv
            exact ⟨⟨e.dist + w, n, e.path ++ [n]⟩, List.mem_cons_self _ _, htn.symm, hv⟩
          · rw [alookup_aupdate_ne dist _ htn] at hv
            obtain ⟨e2, he2, he2c, he2d⟩ := h9 v hv
            exact ⟨e2, List.mem_cons.mpr (Or.inr he2), he2c, he2d⟩
        obtain ⟨o1, o2, o3, o4, o5, o6, o7, o8, o9, o10, o11⟩ :=
          ih (aupdate dist n (e.dist + w)) (⟨e.dist + w, n, e.path ++ [n]⟩ :: q)
            hrest g1 g2 g3 g4 g5 g6 g7 g8 g9
        refine ⟨o1, o2, o3, o4, o5, o6, o7, o8, ?_, DistLe_trans o10 hstep, ?_⟩
        · intro nw2 hnw2
          rcases List.mem_cons.mp hnw2 with h | h
          · subst h
            obtain ⟨u2, hu2, hu2le⟩ :=
              o10 n (e.dist + w) (alookup_aupdate_self dist n (e.dist + w))
            exact ⟨u2, hu2, hu2le⟩
          · exact o9 nw2 h
        · intro U hU
          have hnU : n ∈ U := hU (n, w) (List.mem_cons_self _ _)
          have hUrest : ∀ nw2 ∈ rest, nw2.1 ∈ U :=
            fun nw2 h => hU nw2 (List.mem_cons.mpr (Or.inr h))
          have hptle : ∀ x, potB (sumWeights g) (aupdate dist n (e.dist + w)) x ≤
              potB (sumWeights g) dist x := by
            intro x
            by_cases hx : x = n
            · subst hx
              rw [potB_aupdate_self]
              simp only [potB, hlk]
              omega
            · rw [potB_aupdate_ne (sumWeights g) dist (e.dist + w) hx]
          have hptlt : potB (sumWeights g) (aupdate dist n (e.dist + w)) n <
              potB (sumWeights g) dist n := by
            rw [potB_aupdate_self]
            simp only [potB, hlk]
            omega
          have hsumlt := listSum_lt_of_strict U n hnU hptle hptlt
          have h11 := o11 U hUrest
          simp only [List.length_cons] at h11
          omega
      · -- no improvement: skip
        have hres : relaxList e ((n, w) :: rest) dist q = relaxList e rest dist q := by
          simp only [relaxList, hlk, if_neg hlt]
        rw [hres]
        obtain ⟨o1, o2, o3, o4, o5, o6, o7, o8, o9, o10, o11⟩ :=
          ih dist q hrest h1 h2 h3 h4 h5 h6 h7 h8 h9
        refine ⟨o1, o2, o3, o4, o5, o6, o7, o8, ?_, o10,
          fun U hU => o11 U (fun nw2 h => hU nw2 (List.mem_cons.mpr (Or.inr h)))⟩
        intro nw2 hnw2
        rcases List.mem_cons.mp hnw2 with h | h
        · subst h
          obtain ⟨u2, hu2, hu2le⟩ := o10 n u hlk
          exact ⟨u2, hu2, by omega⟩
        · exact o9 nw2 h
    | none =>
      -- fresh node: push
      have hnotin : n ∉ e.path := by
        intro hmem
        obtain ⟨u2, hu2, _⟩ := h2 n hmem
        rw [hlk] at hu2
        cases hu2
      have hnec : n ≠ e.city := by
        intro he2
        rw [he2, h1] at hlk
        cases hlk
      have hnesrc : n ≠ source := by
        intro he2
        rw [he2, h4] at hlk
        cases hlk
      have hres : relaxList e ((n, w) :: rest) dist q =
          relaxList e rest (aupdate dist n (e.dist + w))
            (⟨e.dist + w, n, e.path ++ [n]⟩ :: q) := by
        simp only [relaxList, hlk]
      rw [hres]
      have hchain2 : Chain g source n (e.path ++ [n]) (e.dist + w) :=
        hech.append_edge hedge
      have hnd2 : (e.path ++ [n]).Nodup := nodup_append_singleton hend hnotin
      have hstep : DistLe (aupdate dist n (e.dist + w)) dist := DistLe_aupdate_none hlk
      have g1 : alookup (aupdate dist n (e.dist + w)) e.city = some e.dist := by
        rw [alookup_aupdate_ne dist _ (Ne.symm hnec)]
        exact h1
      have g2 : ∀ m ∈ e.path, ∃ u2,
          alookup (aupdate dist n (e.dist + w)) m = some u2 ∧ u2 ≤ e.dist := by
        intro m hm
        have hmne : m ≠ n := fun h => hnotin (h ▸ hm)
        rw [alookup_aupdate_ne dist _ hmne]
        exact h2 m hm
      have g3 : ∀ c v, alookup (aupdate dist n (e.dist + w)) c = some v →
          ∃ p, Chain g source c p v ∧ p.Nodup := by
        intro c v hv
        by_cases hcn : c = n
        · subst hcn
          rw [alookup_aupdate_self] at hv
          injection hv with hv
          rw [← hv]
          exact ⟨e.path ++ [c], hchain2, hnd2⟩
        · rw [alookup_aupdate_ne dist _ hcn] at hv
          exact h3 c v hv
      have g4 : alookup (aupdate dist n (e.dist + w)) source = some 0 := by
        rw [alookup_aupdate_ne dist _ (Ne.symm hnesrc)]
        exact h4
      have g5 : ∀ e2 ∈ (⟨e.dist + w, n, e.path ++ [n]⟩ : Ent) :: q,
          Chain g source e2.city e2.path e2.dist ∧ e2.path.Nodup := by
        intro e2 he2
        rcases List.mem_cons.mp he2 with he2 | he2
        · rw [he2]
          exact ⟨hchain2, hnd2⟩
        · exact h5 e2 he2
      have g6 : ∀ e2 ∈ (⟨e.dist + w, n, e.path ++ [n]⟩ : Ent) :: q,
          ∃ v, alookup (aupdate dist n (e.dist + w)) e2.city = some v ∧ v ≤ e2.dist := by
        intro e2 he2
        rcases List.mem_cons.mp he2 with he2 | he2
        · rw [he2]
          exact ⟨e.dist + w, alookup_aupdate_self dist n (e.dist + w), le_refl _⟩
        · obtain ⟨v, hv, hvle⟩ := h6 e2 he2
          obtain ⟨v2, hv2, hv2le⟩ := hstep e2.city v hv
          exact ⟨v2, hv2, le_trans hv2le hvle⟩
      have g7 : ∀ e2 ∈ (⟨e.dist + w, n, e.path ++ [n]⟩ : Ent) :: q, ∀ m ∈ e2.path,
          ∃ u2, alookup (aupdate dist n (e.dist + w)) m = some u2 ∧ u2 ≤ e2.dist := by
        intro e2 he2 m hm
        rcases List.mem_cons.mp he2 with he2 | he2
        · rw [he2] at hm ⊢
          rcases List.mem_append.mp hm with hm | hm
          · obtain ⟨u2, hu2, hu2le⟩ := g2 m hm
            refine ⟨u2, hu2, ?_⟩
            show u2 ≤ e.dist + w
            omega
          · rw [List.mem_singleton] at hm
            rw [hm]
            exact ⟨e.dist + w, alookup_aupdate_self dist n (e.dist + w), le_refl _⟩
        · obtain ⟨u2, hu2, hu2le⟩ := h7 e2 he2 m hm
          obtain ⟨u3, hu3, hu3le⟩ := hstep m u2 hu2
          exact ⟨u3, hu3, le_trans hu3le hu2le⟩
      have g8 : ∀ c v, alookup (aupdate dist n (e.dist + w)) c = some v → c ≠ e.city →
          (∃ e2 ∈ (⟨e.dist + w, n, e.path ++ [n]⟩ : Ent) :: q, e2.city = c ∧ e2.dist = v) ∨
            RelaxedA g (aupdate dist n (e.dist + w)) c v := by
        intro c v hv hcne
        by_cases hcn : c = n
        · subst hcn
          rw [alookup_aupdate_self] at hv
          injection hv with hv
          exact Or.inl ⟨⟨e.dist + w, c, e.path ++ [c]⟩, List.mem_cons_self _ _, rfl, hv⟩
        · rw [alookup_aupdate_ne dist _ hcn] at hv
          rcases h8 c v hv hcne with hp | hp
          · obtain ⟨e2, he2, he2c, he2d⟩ := hp
            exact Or.inl ⟨e2, List.mem_cons.mpr (Or.inr he2), he2c, he2d⟩
          · exact Or.inr (RelaxedB_mono_A hp hstep)
      have g9 : ∀ v, alookup (aupdate dist n (e.dist + w)) target = some v →
          ∃ e2 ∈ (⟨e.dist + w, n, e.path ++ [n]⟩ : Ent) :: q,
            e2.city = target ∧ e2.dist = v := by
        intro v hv
        by_cases htn : target = n
        · rw [htn, alookup_aupdate_self] at hv
          injection hv with hv
          exact ⟨⟨e.dist + w, n, e.path ++ [n]⟩, List.mem_cons_self _ _, htn.symm, hv⟩
        · rw [alookup_aupdate_ne dist _ htn] at hv
          obtain ⟨e2, he2, he2c, he2d⟩ := h9 v hv
          exact ⟨e2, List.mem_cons.mpr (Or.inr he2), he2c, he2d⟩
      obtain ⟨o1, o2, o3, o4, o5, o6, o7, o8, o9, o10, o11⟩ :=
        ih (aupdate dist n (e.dist + w)) (⟨e.dist + w, n, e.path ++ [n]⟩ :: q)
          hrest g1 g2 g3 g4 g5 g6 g7 g8 g9
      refine ⟨o1, o2, o3, o4, o5, o6, o7, o8, ?_, DistLe_trans o10 hstep, ?_⟩
      · intro nw2 hnw2
        rcases List.mem_cons.mp hnw2 with h | h
        · subst h
          obtain ⟨u2, hu2, hu2le⟩ :=
            o10 n (e.dist + w) (alookup_aupdate_self dist n (e.dist + w))
          exact ⟨u2, hu2, hu2le⟩
        · exact o9 nw2 h
      · intro U hU
        have hnU : n ∈ U := hU (n, w) (List.mem_cons_self _ _)
        have hUrest : ∀ nw2 ∈ rest, nw2.1 ∈ U :=
          fun nw2 h => hU nw2 (List.mem_cons.mpr (Or.inr h))
        have hbnd : e.dist + w ≤ sumWeights g := chain_nodup_cost_le hchain2 hnd2
        have hptle : ∀ x, potB (sumWeights g) (aupdate dist n (e.dist + w)) x ≤
            potB (sumWeights g) dist x := by
          intro x
          by_cases hx : x = n
          · subst hx
            rw [potB_aupdate_self]
            simp only [potB, hlk]
            omega
          · rw [potB_aupdate_ne (sumWeights g) dist (e.dist + w) hx]
        have hptlt : potB (sumWeights g) (aupdate dist n (e.dist + w)) n <
            potB (sumWeights g) dist n := by
          rw [potB_aupdate_self]
          simp only [potB, hlk]
          omega
        have hsumlt := listSum_lt_of_strict U n hnU hptle hptlt
        have h11 := o11 U hUrest
        simp only [List.length_cons] at h11
        omega

theorem AInv_skip (g : Graph) (source target : String) {dist : DistMap}
    {q : List Ent} {e : Ent} {v : Nat}
    (hinv : AInv g source target dist q) (hv : alookup dist e.city = some v)
    (hvd : v < e.dist) (hct : e.city ≠ target) :
    AInv g source target dist (eraseFirst q e) where
  src0 := hinv.src0
  sound := hinv.sound
  qchain := fun e2 he2 => hinv.qchain e2 (eraseFirst_subset q e e2 he2)
  qdist := fun e2 he2 => hinv.qdist e2 (eraseFirst_subset q e e2 he2)
  qpref := fun e2 he2 => hinv.qpref e2 (eraseFirst_subset q e e2 he2)
  por := by
    intro c2 v2 hv2
    rcases hinv.por c2 v2 hv2 with hp | hp
    · obtain ⟨f, hf, hfc, hfd⟩ := hp
      left
      refine ⟨f, mem_eraseFirst_of_ne hf ?_, hfc, hfd⟩
      intro hfe
      subst hfe
      rw [← hfc] at hv2
      rw [hv] at hv2
      injection hv2 with hv2
      omega
    · exact Or.inr hp
  tgt := by
    intro v2 hv2
    obtain ⟨f, hf, hfc, hfd⟩ := hinv.tgt v2 hv2
    refine ⟨f, mem_eraseFirst_of_ne hf ?_, hfc, hfd⟩
    intro hfe
    exact hct (hfe ▸ hfc)

theorem pend_walk (g : Graph) (dist : DistMap) (q : List Ent)
    (hpor : ∀ c v, alookup dist c = some v →
      (∃ f ∈ q, f.city = c ∧ f.dist = v) ∨ RelaxedA g dist c v) :
    ∀ {a z : String} {p : List String} {C : Nat}, Chain g a z p C →
      ∀ va, alookup dist a = some va →
        (∃ f ∈ q, f.dist ≤ va + C) ∨ (∃ u, alookup dist z = some u ∧ u ≤ va + C) := by
  intro a z p C hchain
  induction hchain with
  | single x =>
    intro va hva
    exact Or.inr ⟨va, hva, by omega⟩
  | cons hedge hch ih =>
    intro va hva
    rcases hpor _ va hva with hp | hp
    · obtain ⟨f, hf, _, hfd⟩ := hp
      exact Or.inl ⟨f, hf, by omega⟩
    · obtain ⟨ub, hub, huble⟩ := hp _ _ hedge
      rcases ih ub hub with hl | hr
      · obtain ⟨f, hf, hfle⟩ := hl
        exact Or.inl ⟨f, hf, by omega⟩
      · obtain ⟨uz, huz, huzle⟩ := hr
        exact Or.inr ⟨uz, huz, by omega⟩

theorem dijLoopA_correct (g : Graph) (source target : String) :
    ∀ (fuel : Nat) (dist : DistMap) (q : List Ent),
      2 * (((nodesOf g source).map (potB (sumWeights g) dist)).sum) + q.length < fuel →
      AInv g source target dist q →
      (Chain g source target (dijLoopA g target fuel dist q).1
          (dijLoopA g target fuel dist q).2 ∧
        ∀ p d, Chain g source target p d → (dijLoopA g target fuel dist q).2 ≤ d) ∨
      (dijLoopA g target fuel dist q = ([], 0) ∧ ∀ p d, ¬ Chain g source target p d) := by
  intro fuel
  induction fuel with
  | zero =>
    intro dist q hm hinv
    omega
  | succ fuel ih =>
    intro dist q hm hinv
    cases hpop : popMin entKey q with
    | none =>
      have hq0 : q = [] := popMin_none _ hpop
      have hres : dijLoopA g target (fuel + 1) dist q = ([], 0) := by
        simp only [dijLoopA, hpop]
      right
      refine ⟨hres, ?_⟩
      intro p d hch
      rcases pend_walk g dist q hinv.por hch 0 hinv.src0 with hl | hr
      · obtain ⟨f, hf, _⟩ := hl
        rw [hq0] at hf
        cases hf
      · obtain ⟨u, hu, _⟩ := hr
        obtain ⟨f, hf, _, _⟩ := hinv.tgt u hu
        rw [hq0] at hf
        cases hf
    | some pr =>
      obtain ⟨e, q1⟩ := pr
      have hmeta := popMin_eq_some entKey hpop
      have hq1 : q1 = eraseFirst q e := hmeta.2.2.1
      have hlen : q1.length + 1 = q.length := hmeta.2.2.2
      by_cases hct : e.city = target
      · have hres : dijLoopA g target (fuel + 1) dist q = (e.path, e.dist) := by
          simp only [dijLoopA, hpop, if_pos hct]
        rw [hres]
        left
        have hch : Chain g source target e.path e.dist :=
          hct ▸ (hinv.qchain e hmeta.1).1
        refine ⟨hch, ?_⟩
        intro p d hchpd
        show e.dist ≤ d
        rcases pend_walk g dist q hinv.por hchpd 0 hinv.src0 with hl | hr
        · obtain ⟨f, hf, hfle⟩ := hl
          have hle : e.dist ≤ f.dist := keyLe_dist (hmeta.2.1 f hf)
          omega
        · obtain ⟨u, hu, hule⟩ := hr
          obtain ⟨f, hf, hfc, hfd⟩ := hinv.tgt u hu
          have hle : e.dist ≤ f.dist := keyLe_dist (hmeta.2.1 f hf)
          omega
      · obtain ⟨v, hv, hvled⟩ := hinv.qdist e hmeta.1
        by_cases hvd : v < e.dist
        · have hres : dijLoopA g target (fuel + 1) dist q =
              dijLoopA g target fuel dist q1 := by
            simp only [dijLoopA, hpop, if_neg hct, hv, if_pos hvd]
          rw [hres]
          refine ih dist q1 (by omega) ?_
          rw [hq1]
          exact AInv_skip g source target hinv hv hvd hct
        · have hveq : v = e.dist := Nat.le_antisymm hvled (Nat.le_of_not_lt hvd)
          subst hveq
          have hres : dijLoopA g target (fuel + 1) dist q =
              dijLoopA g target fuel
                (relaxList e ((alookup g e.city).getD []) dist q1).1
                (relaxList e ((alookup g e.city).getD []) dist q1).2 := by
            simp only [dijLoopA, hpop, if_neg hct, hv, if_neg hvd]
          rw [hres]
          have hech := (hinv.qchain e hmeta.1).1
          have hend := (hinv.qchain e hmeta.1).2
          have hedges : ∀ nw ∈ (alookup g e.city).getD [],
              edgeMem g e.city nw.1 nw.2 := by
            intro nw hnw
            cases halk : alookup g e.city with
            | some ns0 =>
              rw [halk] at hnw
              exact ⟨ns0, halk, hnw⟩
            | none =>
              rw [halk] at hnw
              cases hnw
          have h5 : ∀ e2 ∈ q1, Chain g source e2.city e2.path e2.dist ∧
              e2.path.Nodup := by
            intro e2 he2
            rw [hq1] at he2
            exact hinv.qchain e2 (eraseFirst_subset q e e2 he2)
          have h6 : ∀ e2 ∈ q1, ∃ u, alookup dist e2.city = some u ∧ u ≤ e2.dist := by
            intro e2 he2
            rw [hq1] at he2
            exact hinv.qdist e2 (eraseFirst_subset q e e2 he2)
          have h7 : ∀ e2 ∈ q1, ∀ m ∈ e2.path,
              ∃ u, alookup dist m = some u ∧ u ≤ e2.dist := by
            intro e2 he2
            rw [hq1] at he2
            exact hinv.qpref e2 (eraseFirst_subset q e e2 he2)
          have h8 : ∀ c v2, alookup dist c = some v2 → c ≠ e.city →
              (∃ e2 ∈ q1, e2.city = c ∧ e2.dist = v2) ∨ RelaxedA g dist c v2 := by
            intro c v2 hv2 hne
            rcases hinv.por c v2 hv2 with hp | hp
            · obtain ⟨f, hf, hfc, hfd⟩ := hp
              left
              refine ⟨f, ?_, hfc, hfd⟩
              rw [hq1]
              apply mem_eraseFirst_of_ne hf
              intro hfe
              exact hne ((hfe ▸ hfc).symm)
            · exact Or.inr hp
          have h9 : ∀ v2, alookup dist target = some v2 →
              ∃ e2 ∈ q1, e2.city = target ∧ e2.dist = v2 := by
            intro v2 hv2
            obtain ⟨f, hf, hfc, hfd⟩ := hinv.tgt v2 hv2
            refine ⟨f, ?_, hfc, hfd⟩
            rw [hq1]
            apply mem_eraseFirst_of_ne hf
            intro hfe
            exact hct (hfe ▸ hfc)
          obtain ⟨o1, o2, o3, o4, o5, o6, o7, o8, o9, o10, o11⟩ :=
            relaxList_spec g source target e hech hend ((alookup g e.city).getD [])
              dist q1 hedges hv (hinv.qpref e hmeta.1) hinv.sound hinv.src0
              h5 h6 h7 h8 h9
          have hUedges : ∀ nw ∈ (alookup g e.city).getD [],
              nw.1 ∈ nodesOf g source := by
            intro nw hnw
            obtain ⟨n2, w2⟩ := nw
            obtain ⟨ns, halk, hm2⟩ := hedges (n2, w2) hnw
            exact mem_nodesOf_of_edge g source halk hm2
          have hmr := o11 (nodesOf g source) hUedges
          refine ih _ _ (by omega) ?_
          exact {
            src0 := o3
            sound := o2
            qchain := o4
            qdist := o5
            qpref := o6
            por := by
              intro c u hu
              by_cases hne : c = e.city
              · subst hne
                rw [o1] at hu
                injection hu with hu
                subst hu
                right
                intro n w he
                obtain ⟨ns, halk, hm2⟩ := he
                have hnm : (n, w) ∈ (alookup g e.city).getD [] := by
                  rw [halk]
                  exact hm2
                exact o9 (n, w) hnm
              · rcases o7 c u hu hne with hp | hp
                · exact Or.inl hp
                · exact Or.inr hp
            tgt := o8 }

theorem chain_head_key {g : Graph} {a c : String} {p : List String} {d : Nat}
    (h : Chain g a c p d) (hne : a ≠ c) : ∃ ns, alookup g a = some ns := by
  cases h with
  | single x => exact absurd rfl hne
  | cons he htail =>
    obtain ⟨ns, halk, _⟩ := he
    exact ⟨ns, halk⟩

theorem dijkstra_shortest_path_opt (g : Graph) (source target : String)
    (hst : source ≠ target)
    (hs : (alookup g source).isNone = false) (ht : (alookup g target).isNone = false) :
    (Chain g source target (dijkstra_shortest_path g source target).1
        (dijkstra_shortest_path g source target).2 ∧
      ∀ p d, Chain g source target p d →
        (dijkstra_shortest_path g source target).2 ≤ d) ∨
    (dijkstra_shortest_path g source target = ([], 0) ∧
      ∀ p d, ¬ Chain g source target p d) := by
  have hres : dijkstra_shortest_path g source target =
      dijLoopA g target (dijFuel g source) [(source, 0)] [⟨0, source, [source]⟩] := by
    simp [dijkstra_shortest_path, hst, hs, ht]
  have hinv0 : AInv g source target [(source, 0)] [⟨0, source, [source]⟩] := by
    refine ⟨?_, ?_, ?_, ?_, ?_, ?_, ?_⟩
    · rw [alookup, if_pos rfl]
    · intro c2 v hv
      by_cases hc2 : source = c2
      · rw [alookup, if_pos hc2] at hv
        injection hv with hv
        cases hc2
        rw [← hv]
        exact ⟨[source], Chain.single source, List.nodup_singleton source⟩
      · rw [alookup, if_neg hc2, alookup] at hv
        cases hv
    · intro e he
      rcases List.mem_cons.mp he with he | he
      · subst he
        exact ⟨Chain.single source, List.nodup_singleton source⟩
      · cases he
    · intro e he
      rcases List.mem_cons.mp he with he | he
      · subst he
        exact ⟨0, by rw [alookup, if_pos rfl], le_refl 0⟩
      · cases he
    · intro e he m hme
      rcases List.mem_cons.mp he with he | he
      · subst he
        have hme2 : m = source := by simpa using hme
        subst hme2
        exact ⟨0, by rw [alookup, if_pos rfl], le_refl 0⟩
      · cases he
    · intro c2 v hv
      by_cases hc2 : source = c2
      · rw [alookup, if_pos hc2] at hv
        injection hv with hv
        left
        exact ⟨⟨0, source, [source]⟩, List.mem_cons_self _ _, hc2, hv⟩
      · rw [alookup, if_neg hc2, alookup] at hv
        cases hv
    · intro v hv
      rw [alookup, if_neg hst, alookup] at hv
      cases hv
  have hfuel : 2 * (((nodesOf g source).map (potB (sumWeights g) [(source, 0)])).sum) +
      ([⟨0, source, [source]⟩] : List Ent).length < dijFuel g source := by
    have hb : ∀ x ∈ (nodesOf g source).map (potB (sumWeights g) [(source, 0)]),
        x ≤ sumWeights g + 1 := by
      intro x hx
      obtain ⟨c2, hc2, hxe⟩ := List.mem_map.mp hx
      rw [← hxe]
      unfold potB
      by_cases hc3 : source = c2
      · have hl : alookup [(source, 0)] c2 = some 0 := by rw [alookup, if_pos hc3]
        simp only [hl]
        omega
      · have hl : alookup [(source, 0)] c2 = none := by
          rw [alookup, if_neg hc3, alookup]
        simp only [hl]
        omega
    have hsum := List.sum_le_card_nsmul _ (sumWeights g + 1) hb
    rw [List.length_map] at hsum
    rw [smul_eq_mul] at hsum
    unfold dijFuel
    simp only [List.length_cons, List.length_nil]
    have := Nat.mul_comm ((nodesOf g source).length) (sumWeights g + 1)
    omega
  have hmain := dijLoopA_correct g source target (dijFuel g source) _ _ hfuel hinv0
  rw [hres]
  exact hmain

/-- C8: For every pair of city names A and B that are reachable from each
other in the graph built from the connection list (both directions of every
connection inserted), the distance returned by `dijkstra_shortest_path`
from A to B equals the distance returned from B to A. -/
theorem shortest_path_symmetric (conns : List (String × String × Nat)) (A B : String)
    (hreach : ∃ p d, Chain (build_graph conns) A B p d) :
    (dijkstra_shortest_path (build_graph conns) A B).2 =
      (dijkstra_shortest_path (build_graph conns) B A).2 := by
  by_cases hAB : A = B
  · rw [hAB]
  · obtain ⟨p, d, hch⟩ := hreach
    have hsym := build_graph_symm conns
    have hwf := build_graph_wf conns
    have hchR : Chain (build_graph conns) B A p.reverse d := chain_reverse hsym hwf hch
    have hA : (alookup (build_graph conns) A).isNone = false := by
      obtain ⟨ns, halk⟩ := chain_head_key hch hAB
      rw [halk]
      rfl
    have hB : (alookup (build_graph conns) B).isNone = false := by
      obtain ⟨ns, halk⟩ := chain_head_key hchR (fun h => hAB h.symm)
      rw [halk]
      rfl
    rcases dijkstra_shortest_path_opt (build_graph conns) A B hAB hA hB with
      ⟨hc1, hmin1⟩ | ⟨_, hno1⟩
    · rcases dijkstra_shortest_path_opt (build_graph conns) B A
          (fun h => hAB h.symm) hB hA with ⟨hc2, hmin2⟩ | ⟨_, hno2⟩
      · have h12 : (dijkstra_shortest_path (build_graph conns) A B).2 ≤
            (dijkstra_shortest_path (build_graph conns) B A).2 :=
          hmin1 _ _ (chain_reverse hsym hwf hc2)
        have h21 : (dijkstra_shortest_path (build_graph conns) B A).2 ≤
            (dijkstra_shortest_path (build_graph conns) A B).2 :=
          hmin2 _ _ (chain_reverse hsym hwf hc1)
        omega
      · exact absurd hchR (hno2 p.reverse d)
    · exact absurd hch (hno1 p d)

theorem shortest_path_symmetric_witness :
    (∃ p d, Chain (build_graph [("a", "b", 5)]) "a" "b" p d) ∧
    (dijkstra_shortest_path (build_graph [("a", "b", 5)]) "a" "b").2 =
      (dijkstra_shortest_path (build_graph [("a", "b", 5)]) "b" "a").2 := by
  have hed : edgeMem (build_graph [("a", "b", 5)]) "a" "b" 5 :=
    ⟨[("b", 5)], rfl, List.mem_cons_self _ _⟩
  have hre : ∃ p d, Chain (build_graph [("a", "b", 5)]) "a" "b" p d :=
    ⟨["a", "b"], 5 + 0, Chain.cons hed (Chain.single "b")⟩
  exact ⟨hre, shortest_path_symmetric [("a", "b", 5)] "a" "b" hre⟩
